import Mathlib

/-!
Verification development for the prometheus-aggregator repository.

The Go sources are shallowly embedded:
* Go byte strings are modelled as `List Char` (`Str`); every input the
  theorems quantify over is restricted to ASCII where byte/char equality
  matters, so one `Char` stands for one byte.
* Go `float64` is modelled by `GoFloat`: an exact rational for finite
  values plus the three special values `+Inf`, `-Inf`, `NaN`.  Finite
  arithmetic is exact (no binary rounding); the special values follow
  IEEE rules for addition and ordering, which is what the code relies on.
* Go maps (`map[string]string`, `map[timeseriesKey]timeseriesValue`, ...)
  are modelled as association lists with unique keys; map iteration order
  never matters in the code because every iteration sorts its keys first,
  and the theorems prove exactly that order independence.
* `uint64` counters are modelled as `Nat`; no claim involves wraparound.
-/

namespace PromAgg

/-- Byte strings of the Go source, one `Char` per byte (ASCII discipline). -/
abbrev Str := List Char

/-- Convenience: the character list of a Lean string literal. -/
def str (s : String) : Str := s.data

/-- Model of Go `float64`: exact rationals for finite values plus the IEEE
special values.  Binary rounding of finite arithmetic is not modelled. -/
inductive GoFloat where
  | finite (q : ℚ)
  | pinf
  | ninf
  | nan
deriving DecidableEq

/-- IEEE addition on `GoFloat` (`+` of Go `float64`), exact on finite values. -/
def goAdd : GoFloat → GoFloat → GoFloat
  | .nan, _ => .nan
  | _, .nan => .nan
  | .pinf, .ninf => .nan
  | .ninf, .pinf => .nan
  | .pinf, _ => .pinf
  | _, .pinf => .pinf
  | .ninf, _ => .ninf
  | _, .ninf => .ninf
  | .finite a, .finite b => .finite (a + b)

/-- IEEE `<=` on `GoFloat` (Go `float64` comparison): any comparison with
`NaN` is false. -/
def goLe : GoFloat → GoFloat → Bool
  | .nan, _ => false
  | _, .nan => false
  | .ninf, _ => true
  | _, .pinf => true
  | .pinf, _ => false
  | .finite _, .ninf => false
  | .finite a, .finite b => decide (a ≤ b)

/-- The `observation` struct of universe.go (JSON tags elided; `Value`
is a nullable pointer, hence `Option`). -/
structure observation where
  name : Str
  type : Str
  help : Str
  buckets : List GoFloat
  labels : List (Str × Str)
  op : Str
  value : Option GoFloat
deriving DecidableEq

/-- The zero value of the `observation` struct (what `var o observation`
or decoding into a fresh struct starts from). -/
def obsZero : observation := ⟨[], [], [], [], [], [], none⟩

/-- Bytewise `<=` on strings, as Go compares strings with `<`/`<=`. -/
def lexLe : Str → Str → Bool
  | [], _ => true
  | _ :: _, [] => false
  | a :: as, b :: bs =>
    if a.toNat < b.toNat then true
    else if a.toNat = b.toNat then lexLe as bs
    else false

/-- Propositional form of `lexLe`, used as the sorting relation. -/
def strle (a b : Str) : Prop := lexLe a b = true

instance : DecidableRel strle := fun a b => inferInstanceAs (Decidable (_ = true))

/-- Go map lookup `m[k]` on the association-list model. -/
def lookupA {α : Type} : Str → List (Str × α) → Option α
  | _, [] => none
  | k, (k', v) :: rest => if k = k' then some v else lookupA k rest

/-- Go map assignment `m[k] = v` on the association-list model. -/
def upsertA {α : Type} : Str → α → List (Str × α) → List (Str × α)
  | k, v, [] => [(k, v)]
  | k, v, (k', v') :: rest =>
    if k = k' then (k, v) :: rest else (k', v') :: upsertA k v rest

/-- The key set of a Go map (iteration order is the list order). -/
def keysA {α : Type} (l : List (Str × α)) : List Str := l.map Prod.fst

/-- `sort.Strings` / `sort.Slice(keys, less)` of universe.go: the keys in
increasing bytewise order. -/
def sortStrs (l : List Str) : List Str := List.insertionSort strle l

/-- `sortLabelKeys` of universe.go. -/
def sortLabelKeys (labels : List (Str × Str)) : List Str := sortStrs (keysA labels)

/-- `strings.Join(parts, ",")`. -/
def joinComma : List Str → Str
  | [] => []
  | [x] => x
  | x :: y :: rest => x ++ ',' :: joinComma (y :: rest)

/-- One `k="v"` part of a rendered label set. -/
def labelPart (labels : List (Str × Str)) (k : Str) : Str :=
  k ++ '=' :: '"' :: ((lookupA k labels).getD []) ++ ['"']

/-- `renderLabels` of universe.go: label names sorted bytewise, serialized
as `name="value"` comma-joined inside braces. -/
def renderLabels (labels : List (Str × Str)) : Str :=
  '\x7b' :: joinComma ((sortLabelKeys labels).map (labelPart labels)) ++ ['\x7d']

/-- `makeTimeseriesKey` of universe.go. -/
def makeTimeseriesKey (name : Str) (labels : List (Str × Str)) : Str :=
  name ++ ' ' :: renderLabels labels

/-- The `counter` struct of universe.go. -/
structure counter where
  n : Str
  h : Str
  labels : List (Str × Str)
  touch : Bool
  value : GoFloat
deriving DecidableEq

/-- The `gauge` struct of universe.go. -/
structure gauge where
  n : Str
  h : Str
  labels : List (Str × Str)
  touch : Bool
  value : GoFloat
deriving DecidableEq

/-- The `bucket` struct of universe.go (`count` is a Go `uint64`). -/
structure bucket where
  max : GoFloat
  count : Nat
deriving DecidableEq

/-- The `histogram` struct of universe.go. -/
structure histogram where
  n : Str
  h : Str
  labels : List (Str × Str)
  sum : GoFloat
  count : Nat
  buckets : List bucket
deriving DecidableEq

/-- `newCounter`: Go zero values give `touch = false`, `value = 0`. -/
def newCounter (o : observation) : counter := ⟨o.name, o.help, o.labels, false, .finite 0⟩

/-- `newGauge`. -/
def newGauge (o : observation) : gauge := ⟨o.name, o.help, o.labels, false, .finite 0⟩

/-- `newHistogram`: one zero-count bucket per declared upper bound. -/
def newHistogram (o : observation) : histogram :=
  ⟨o.name, o.help, o.labels, .finite 0, 0, o.buckets.map (fun m => ⟨m, 0⟩)⟩

/-- `counter.observe` of universe.go: a declaration (no value) is a no-op;
otherwise add the value (`op` is never consulted) and mark touched. -/
def counterObserve (c : counter) (o : observation) : counter :=
  match o.value with
  | none => c
  | some v => { c with touch := true, value := goAdd c.value v }

/-- `gauge.observe` of universe.go: `op == "add"` accumulates, any other op
replaces; mark touched. -/
def gaugeObserve (g : gauge) (o : observation) : gauge :=
  match o.value with
  | none => g
  | some v =>
    if o.op = str "add" then { g with value := goAdd g.value v, touch := true }
    else { g with value := v, touch := true }

/-- `histogram.observe` of universe.go: add to `sum`, bump `count`, and bump
every bucket whose upper bound admits the value (`*o.Value <= max`). -/
def histogramObserve (h : histogram) (o : observation) : histogram :=
  match o.value with
  | none => h
  | some v =>
    { h with
      sum := goAdd h.sum v
      count := h.count + 1
      buckets := h.buckets.map (fun b =>
        if goLe v b.max then { b with count := b.count + 1 } else b) }

/-- The `timeseriesValue` interface: a closed sum of the three metric kinds. -/
inductive timeseriesValue where
  | counter (c : counter)
  | gauge (g : gauge)
  | histogram (h : histogram)
deriving DecidableEq

/-- Dynamic dispatch of `observe` over a `timeseriesValue`. -/
def tsObserve : timeseriesValue → observation → timeseriesValue
  | .counter c, o => .counter (counterObserve c o)
  | .gauge g, o => .gauge (gaugeObserve g o)
  | .histogram h, o => .histogram (histogramObserve h o)

/-- Dynamic dispatch of `touched`: the histogram's flag is `count > 0`. -/
def tsTouched : timeseriesValue → Bool
  | .counter c => c.touch
  | .gauge g => g.touch
  | .histogram h => decide (0 < h.count)

/-- Decimal digits of a natural number. -/
def natStr (n : Nat) : Str := Nat.toDigits 10 n

/-- Decimal rendering of a Go integer. -/
def intStr : Int → Str
  | .ofNat n => natStr n
  | .negSucc n => '-' :: natStr (n + 1)

/-- Model of `fmt` `%f` digit production for a finite value: six fraction
digits, rounding to nearest.  (The exact tie-breaking of the Go runtime on
the underlying binary float is not modelled; no theorem depends on the
digits this function produces.) -/
def fixed6 (q : ℚ) : Str :=
  let sgn : Str := if q < 0 then ['-'] else []
  let n : Nat := (q.num.natAbs * 2000000 + q.den) / (2 * q.den)
  let frac := natStr (n % 1000000)
  sgn ++ natStr (n / 1000000) ++ '.' :: (List.replicate (6 - frac.length) '0' ++ frac)

/-- Model of `fmt.Sprintf("%f", v)` for a `float64`. -/
def goFmtF : GoFloat → Str
  | .finite q => fixed6 q
  | .pinf => str "+Inf"
  | .ninf => str "-Inf"
  | .nan => str "NaN"

/-- Decimal expansion helper for `goFmtV`: smallest number of fraction
digits (up to the fuel) at which the rational terminates. -/
def fracDigits : Nat → ℚ → Option Nat
  | 0, _ => none
  | fuel + 1, q =>
    if q.den = 1 then some 0
    else match fracDigits fuel (q * 10) with
      | some k => some (k + 1)
      | none => none

/-- Model of `fmt.Sprint(v)` for a `float64` (shortest decimal form, e.g.
`0.5`, `1`, `2`).  Only used inside `le` label values; no theorem depends
on the digits. -/
def goFmtV : GoFloat → Str
  | .pinf => str "+Inf"
  | .ninf => str "-Inf"
  | .nan => str "NaN"
  | .finite q =>
    match fracDigits 1200 q with
    | some 0 => intStr q.num
    | some k =>
      let scaled := q.num.natAbs * 10 ^ k / q.den
      let digits := natStr (scaled % 10 ^ k)
      (if q.num < 0 then ['-'] else []) ++ natStr (scaled / 10 ^ k) ++
        '.' :: (List.replicate (k - digits.length) '0' ++ digits)
    | none => str "?"

/-- `counter.renderText` of universe.go. -/
def counterRenderText (c : counter) : Str :=
  c.n ++ renderLabels c.labels ++ ' ' :: goFmtF c.value ++ ['\n']

/-- `gauge.renderText` of universe.go. -/
def gaugeRenderText (g : gauge) : Str :=
  g.n ++ renderLabels g.labels ++ ' ' :: goFmtF g.value ++ ['\n']

/-- One declared-bucket line of `histogram.renderText` (the running
`labelscopy` map equals the series labels with `le` reassigned). -/
def histBucketLine (h : histogram) (b : bucket) : Str :=
  h.n ++ str "_bucket" ++ renderLabels (upsertA (str "le") (goFmtV b.max) h.labels) ++
    ' ' :: natStr b.count ++ ['\n']

/-- The lines of `histogram.renderText`: declared buckets in order, the
synthetic `+Inf` bucket carrying the total count, then `_sum` and `_count`. -/
def histLines (h : histogram) : List Str :=
  h.buckets.map (histBucketLine h) ++
  [h.n ++ str "_bucket" ++ renderLabels (upsertA (str "le") (str "+Inf") h.labels) ++
     ' ' :: natStr h.count ++ ['\n'],
   h.n ++ str "_sum" ++ renderLabels h.labels ++ ' ' :: goFmtF h.sum ++ ['\n'],
   h.n ++ str "_count" ++ renderLabels h.labels ++ ' ' :: natStr h.count ++ ['\n']]

/-- `histogram.renderText` of universe.go. -/
def histogramRenderText (h : histogram) : Str := (histLines h).flatten

/-- Dynamic dispatch of `renderText`. -/
def tsRenderText : timeseriesValue → Str
  | .counter c => counterRenderText c
  | .gauge g => gaugeRenderText g
  | .histogram h => histogramRenderText h

/-- The `timeseriesCollection` struct of universe.go. -/
structure timeseriesCollection where
  typ : Str
  help : Str
  buckets : List GoFloat
  values : List (Str × timeseriesValue)
deriving DecidableEq

/-- `newTimeseriesCollection`: kind must be one of the three metric kinds
and the help string must be non-empty. -/
def newTimeseriesCollection (typ help : Str) (buckets : List GoFloat) :
    Except Str timeseriesCollection :=
  if typ = str "counter" ∨ typ = str "gauge" ∨ typ = str "histogram" then
    if help = [] then .error (str "help string cannot be empty")
    else .ok ⟨typ, help, buckets, []⟩
  else .error (str "invalid type")

/-- `newTimeseriesValue` of universe.go. -/
def newTimeseriesValue (typ : Str) (o : observation) : Except Str timeseriesValue :=
  if o.name = [] then .error (str "a new timeseries value requires a name")
  else if typ = str "counter" then .ok (.counter (newCounter o))
  else if typ = str "gauge" then .ok (.gauge (newGauge o))
  else if typ = str "histogram" then .ok (.histogram (newHistogram o))
  else .error (str "invalid timeseries type")

/-- `timeseriesCollection.touched`. -/
def collTouched (c : timeseriesCollection) : Bool :=
  c.values.any (fun kv => tsTouched kv.2)

/-- The first-writer-wins overwrite performed at the top of
`timeseriesCollection.observe`. -/
def overwriteMeta (c : timeseriesCollection) (o : observation) : observation :=
  { o with type := c.typ, help := c.help, buckets := c.buckets }

/-- `timeseriesCollection.observe`: overwrite the observation's metadata
with the stored family metadata, create the series on first sight of its
key, then apply the observation.  Returns the updated collection and the
error, mirroring Go's in-place mutation plus error return. -/
def collectionObserve (c : timeseriesCollection) (o : observation) :
    timeseriesCollection × Option Str :=
  let o' := overwriteMeta c o
  let k := makeTimeseriesKey o'.name o'.labels
  match lookupA k c.values with
  | some v => ({ c with values := upsertA k (tsObserve v o') c.values }, none)
  | none =>
    match newTimeseriesValue c.typ o' with
    | .error e => (c, some e)
    | .ok v => ({ c with values := upsertA k (tsObserve v o') c.values }, none)

/-- The `universe` struct of universe.go (the mutex guards the whole map;
sequential modelling makes it implicit). -/
structure Universe where
  collections : List (Str × timeseriesCollection)
deriving DecidableEq

/-- `newUniverse()` with no initial observations. -/
def emptyUniverse : Universe := ⟨[]⟩

/-- `universe.observe`: create the family on first sight of the name (the
collection stays in the map even if the subsequent series creation fails,
as in Go), then delegate. -/
def universeObserve (u : Universe) (o : observation) : Universe × Option Str :=
  match lookupA o.name u.collections with
  | some c =>
    let r := collectionObserve c o
    (⟨upsertA o.name r.1 u.collections⟩, r.2)
  | none =>
    match newTimeseriesCollection o.type o.help o.buckets with
    | .error e => (u, some e)
    | .ok c =>
      let r := collectionObserve c o
      (⟨upsertA o.name r.1 u.collections⟩, r.2)

/-- Apply a list of observations in order, dropping errors (the transports
log and continue). -/
def observeAll (u : Universe) (os : List observation) : Universe :=
  os.foldl (fun u o => (universeObserve u o).1) u

/-- The inner loop of the scrape handler over one family: the touched
series in sorted key order, untouched series skipped. -/
def seriesBody (values : List (Str × timeseriesValue)) : Str :=
  ((sortStrs (keysA values)).map (fun k =>
      match lookupA k values with
      | some v => if tsTouched v then tsRenderText v else []
      | none => [])).flatten

/-- The text block one family contributes to a scrape: nothing at all if no
series is touched, otherwise HELP line, TYPE line, the touched series in
sorted key order, and one terminating blank line. -/
def renderCollection (n : Str) (c : timeseriesCollection) : Str :=
  if collTouched c then
    str "# HELP " ++ n ++ ' ' :: c.help ++
    '\n' :: (str "# TYPE " ++ n ++ ' ' :: c.typ ++
    '\n' :: seriesBody c.values ++ ['\n'])
  else []

/-- The document built by `universe.ServeHTTP`: families in sorted name
order, untouched families skipped. -/
def renderUniverse (u : Universe) : Str :=
  ((sortStrs (keysA u.collections)).map (fun n =>
     match lookupA n u.collections with
     | some c => renderCollection n c
     | none => [])).flatten

/-- `universe.ServeHTTP` as a state transformer: it writes the rendered
document and leaves the registry untouched (the handler only reads). -/
def serveScrape (u : Universe) : Str × Universe := (renderUniverse u, u)

/-! ### The bytewise string order is a linear order -/

theorem lexLe_total : ∀ a b : Str, lexLe a b = true ∨ lexLe b a = true := by
  intro a
  induction a with
  | nil => intro b; left; rfl
  | cons x xs ih =>
    intro b
    cases b with
    | nil => right; rfl
    | cons y ys =>
      by_cases h1 : x.toNat < y.toNat
      · left; simp [lexLe, h1]
      · by_cases h2 : x.toNat = y.toNat
        · rcases ih ys with h | h
          · left; simp [lexLe, h1, h2, h]
          · right
            have h3 : ¬ y.toNat < x.toNat := by omega
            simp [lexLe, h3, h2.symm, h]
        · right
          have h3 : y.toNat < x.toNat := by omega
          simp [lexLe, h3]

theorem lexLe_trans : ∀ a b c : Str, lexLe a b = true → lexLe b c = true →
    lexLe a c = true := by
  intro a
  induction a with
  | nil => intro b c _ _; rfl
  | cons x xs ih =>
    intro b c hab hbc
    cases b with
    | nil => simp [lexLe] at hab
    | cons y ys =>
      cases c with
      | nil => simp [lexLe] at hbc
      | cons z zs =>
        rcases Nat.lt_trichotomy x.toNat y.toNat with hxy | hxy | hxy
        · rcases Nat.lt_trichotomy y.toNat z.toNat with hyz | hyz | hyz
          · have h : x.toNat < z.toNat := hxy.trans hyz
            simp [lexLe, h]
          · have h : x.toNat < z.toNat := hyz ▸ hxy
            simp [lexLe, h]
          · exfalso
            have h1 : ¬ y.toNat < z.toNat := by omega
            have h2 : ¬ y.toNat = z.toNat := by omega
            simp [lexLe, h1, h2] at hbc
        · have hab' : lexLe xs ys = true := by
            have h1 : ¬ x.toNat < y.toNat := by omega
            simpa [lexLe, h1, hxy] using hab
          rcases Nat.lt_trichotomy y.toNat z.toNat with hyz | hyz | hyz
          · have h : x.toNat < z.toNat := hxy ▸ hyz
            simp [lexLe, h]
          · have hbc' : lexLe ys zs = true := by
              have h1 : ¬ y.toNat < z.toNat := by omega
              simpa [lexLe, h1, hyz] using hbc
            have h1 : ¬ x.toNat < z.toNat := by omega
            have h2 : x.toNat = z.toNat := by omega
            simp [lexLe, h1, h2, ih ys zs hab' hbc']
          · exfalso
            have h1 : ¬ y.toNat < z.toNat := by omega
            have h2 : ¬ y.toNat = z.toNat := by omega
            simp [lexLe, h1, h2] at hbc
        · exfalso
          have h1 : ¬ x.toNat < y.toNat := by omega
          have h2 : ¬ x.toNat = y.toNat := by omega
          simp [lexLe, h1, h2] at hab

theorem lexLe_antisymm : ∀ a b : Str, lexLe a b = true → lexLe b a = true → a = b := by
  intro a
  induction a with
  | nil =>
    intro b _ hba
    cases b with
    | nil => rfl
    | cons y ys => simp [lexLe] at hba
  | cons x xs ih =>
    intro b hab hba
    cases b with
    | nil => simp [lexLe] at hab
    | cons y ys =>
      rcases Nat.lt_trichotomy x.toNat y.toNat with h | h | h
      · exfalso
        have h1 : ¬ y.toNat < x.toNat := by omega
        have h2 : ¬ y.toNat = x.toNat := by omega
        simp [lexLe, h1, h2] at hba
      · have hxy : x = y := Char.eq_of_val_eq (UInt32.ext h)
        subst hxy
        have h1 : ¬ x.toNat < x.toNat := by omega
        have hab' : lexLe xs ys = true := by simpa [lexLe, h1] using hab
        have hba' : lexLe ys xs = true := by simpa [lexLe, h1] using hba
        rw [ih ys hab' hba']
      · exfalso
        have h1 : ¬ x.toNat < y.toNat := by omega
        have h2 : ¬ x.toNat = y.toNat := by omega
        simp [lexLe, h1, h2] at hab

instance : IsTotal Str strle := ⟨lexLe_total⟩

instance : IsTrans Str strle := ⟨lexLe_trans⟩

instance : IsAntisymm Str strle := ⟨lexLe_antisymm⟩

/-! ### Sorting and lookup respect permutation of the underlying map -/

theorem sortStrs_sorted (l : List Str) : (sortStrs l).Sorted strle :=
  List.sorted_insertionSort strle l

theorem sortStrs_perm (l : List Str) : (sortStrs l).Perm l :=
  List.perm_insertionSort strle l

theorem sortStrs_congr {l₁ l₂ : List Str} (h : l₁.Perm l₂) : sortStrs l₁ = sortStrs l₂ :=
  List.eq_of_perm_of_sorted ((sortStrs_perm l₁).trans (h.trans (sortStrs_perm l₂).symm))
    (sortStrs_sorted l₁) (sortStrs_sorted l₂)

theorem lookupA_congr {α : Type} (k : Str) :
    ∀ {l₁ l₂ : List (Str × α)}, l₁.Perm l₂ → (keysA l₁).Nodup →
      lookupA k l₁ = lookupA k l₂ := by
  intro l₁ l₂ h
  induction h with
  | nil => intro _; rfl
  | cons x h ih =>
    intro nd
    have nd' : (keysA _).Nodup := (List.nodup_cons.mp nd).2
    simp only [lookupA]
    by_cases hk : k = x.1
    · simp [hk]
    · simp [hk, ih nd']
  | swap x y l =>
    intro nd
    have hne : y.1 ≠ x.1 := by
      have := (List.nodup_cons.mp nd).1
      simp only [keysA, List.map_cons, List.mem_cons] at this
      intro hcontra
      exact this (Or.inl hcontra)
    simp only [lookupA]
    by_cases h1 : k = y.1 <;> by_cases h2 : k = x.1
    · exact absurd (h1.symm.trans h2) hne
    · simp [h1, h2, hne]
    · simp [h1, h2, Ne.symm hne]
    · simp [h1, h2]
  | trans h₁ h₂ ih₁ ih₂ =>
    intro nd
    have nd₂ : (keysA _).Nodup := ((h₁.map Prod.fst).nodup_iff).mp nd
    exact (ih₁ nd).trans (ih₂ nd₂)

/-! ### Map-update lemmas -/

theorem lookupA_upsertA_self {α : Type} (k : Str) (v : α) (l : List (Str × α)) :
    lookupA k (upsertA k v l) = some v := by
  induction l with
  | nil => simp [upsertA, lookupA]
  | cons x xs ih =>
    by_cases h : k = x.1
    · simp [upsertA, lookupA, h]
    · simp [upsertA, lookupA, h, ih]

theorem lookupA_upsertA_ne {α : Type} {n m : Str} (h : n ≠ m) (v : α)
    (l : List (Str × α)) : lookupA n (upsertA m v l) = lookupA n l := by
  induction l with
  | nil => simp [upsertA, lookupA, h]
  | cons x xs ih =>
    by_cases hm : m = x.1
    · subst hm
      simp [upsertA, lookupA, h]
    · by_cases hn : n = x.1
      · simp [upsertA, lookupA, hm, hn]
      · simp [upsertA, lookupA, hm, hn, ih]

theorem upsertA_lookup_self {α : Type} {k : Str} {v : α} :
    ∀ {l : List (Str × α)}, lookupA k l = some v → upsertA k v l = l := by
  intro l
  induction l with
  | nil => intro h; simp [lookupA] at h
  | cons x xs ih =>
    intro h
    obtain ⟨x1, x2⟩ := x
    by_cases hk : k = x1
    · simp only [lookupA, if_pos hk] at h
      injection h with h2
      subst hk
      subst h2
      simp [upsertA]
    · simp only [lookupA, if_neg hk] at h
      simp [upsertA, hk, ih h]

theorem lookupA_filter_ne {α : Type} {k key : Str} (h : k ≠ key)
    (l : List (Str × α)) :
    lookupA k (l.filter (fun kv => decide (kv.1 ≠ key))) = lookupA k l := by
  induction l with
  | nil => rfl
  | cons x xs ih =>
    rw [List.filter_cons]
    by_cases hx : x.1 = key
    · rw [if_neg (by simp [hx])]
      have hk : ¬ k = x.1 := fun hc => h (hc.trans hx)
      have hih : lookupA k (List.filter (fun kv => decide (kv.1 ≠ key)) xs) =
          lookupA k xs := ih
      rw [hih]
      simp [lookupA, hk]
    · rw [if_pos (by simp [hx])]
      by_cases hk : k = x.1
      · simp [lookupA, hk]
      · simp only [lookupA, if_neg hk]
        exact ih

theorem keysA_filter_key {α : Type} (p : Str → Bool) (l : List (Str × α)) :
    keysA (l.filter (fun kv => p kv.1)) = (keysA l).filter p := by
  induction l with
  | nil => rfl
  | cons x xs ih =>
    cases hp : p x.1 <;> simp [keysA, List.filter, hp] <;> simpa [keysA] using ih

theorem keysA_filter_ne_key {α : Type} (key : Str) (l : List (Str × α)) :
    keysA (l.filter (fun kv => decide (kv.1 ≠ key))) =
      (keysA l).filter (fun m => decide (m ≠ key)) :=
  keysA_filter_key (fun m => decide (m ≠ key)) l

theorem sortStrs_filter (p : Str → Bool) (l : List Str) :
    sortStrs (l.filter p) = (sortStrs l).filter p := by
  refine List.eq_of_perm_of_sorted ?_ (sortStrs_sorted _) ?_
  · exact (sortStrs_perm _).trans ((sortStrs_perm l).symm.filter p)
  · exact (sortStrs_sorted l).filter p

theorem flatten_map_congr_drop (f g : Str → Str) (key : Str) (l : List Str)
    (hfg : ∀ x, x ≠ key → f x = g x) (hg : g key = []) :
    ((l.filter (fun x => decide (x ≠ key))).map f).flatten = (l.map g).flatten := by
  induction l with
  | nil => rfl
  | cons x xs ih =>
    rw [List.filter_cons]
    by_cases hx : x = key
    · rw [if_neg (by simp [hx])]
      subst hx
      rw [List.map_cons, List.flatten_cons, hg, List.nil_append]
      exact ih
    · rw [if_pos (by simp [hx])]
      rw [List.map_cons, List.flatten_cons, List.map_cons, List.flatten_cons, hfg x hx]
      exact congrArg (fun t => g x ++ t) ih

theorem mem_eq_of_lookupA_nodup {α : Type} {k : Str} {w : α} :
    ∀ {l : List (Str × α)}, (keysA l).Nodup → (k, w) ∈ l → lookupA k l = some w := by
  intro l
  induction l with
  | nil => intro _ hm; simp at hm
  | cons x xs ih =>
    intro nd hm
    rcases List.mem_cons.mp hm with heq | hmem
    · simp [lookupA, ← heq]
    · have hk : k ∈ keysA xs := List.mem_map.mpr ⟨(k, w), hmem, rfl⟩
      have hx : x.1 ≠ k := by
        intro hc
        exact (List.nodup_cons.mp nd).1 (hc ▸ hk)
      have nd' : (keysA xs).Nodup := (List.nodup_cons.mp nd).2
      simp [lookupA, Ne.symm hx, ih nd' hmem]

theorem any_filter_key_false {α : Type} (f : Str × α → Bool) (key : Str) :
    ∀ (l : List (Str × α)), (∀ kv ∈ l, kv.1 = key → f kv = false) →
      (l.filter (fun kv => decide (kv.1 ≠ key))).any f = l.any f := by
  intro l
  induction l with
  | nil => intro _; rfl
  | cons x xs ih =>
    intro hall
    rw [List.filter_cons]
    by_cases hx : x.1 = key
    · rw [if_neg (by simp [hx])]
      have hfx : f x = false := hall x (List.mem_cons_self x xs) hx
      rw [List.any_cons, hfx, Bool.false_or]
      exact ih (fun kv hm => hall kv (List.mem_cons_of_mem x hm))
    · rw [if_pos (by simp [hx])]
      rw [List.any_cons, List.any_cons]
      exact congrArg (fun t => f x || t) (ih (fun kv hm => hall kv (List.mem_cons_of_mem x hm)))

/-! ### Declarations are no-ops on series state -/

theorem tsObserve_none {v : timeseriesValue} {o : observation}
    (h : o.value = none) : tsObserve v o = v := by
  cases v <;> simp [tsObserve, counterObserve, gaugeObserve, histogramObserve, h]

theorem tsTouched_newValue {typ : Str} {o : observation} {v : timeseriesValue}
    (h : newTimeseriesValue typ o = .ok v) : tsTouched v = false := by
  unfold newTimeseriesValue at h
  split_ifs at h
  · injection h with h
    subst h
    simp [tsTouched, newCounter]
  · injection h with h
    subst h
    simp [tsTouched, newGauge]
  · injection h with h
    subst h
    simp [tsTouched, newHistogram]

/-- Everything `timeseriesCollection.observe` does to the series map when
the observation carries no value: either the map is untouched at a key, or
the key was absent and now holds a fresh, untouched series. -/
theorem collectionObserve_decl (c : timeseriesCollection) (o : observation)
    (hv : o.value = none) (k : Str) :
    lookupA k (collectionObserve c o).1.values = lookupA k c.values ∨
    (lookupA k c.values = none ∧
      ∃ v₀, lookupA k (collectionObserve c o).1.values = some v₀ ∧
        tsTouched v₀ = false) := by
  have hv' : (overwriteMeta c o).value = none := hv
  unfold collectionObserve
  cases hk0 : lookupA (makeTimeseriesKey (overwriteMeta c o).name
      (overwriteMeta c o).labels) c.values with
  | some w =>
    left
    simp only [hk0, tsObserve_none hv']
    rw [upsertA_lookup_self hk0]
  | none =>
    cases hnv : newTimeseriesValue c.typ (overwriteMeta c o) with
    | error e => left; simp [hk0, hnv]
    | ok v₀ =>
      by_cases hk : k = makeTimeseriesKey (overwriteMeta c o).name
          (overwriteMeta c o).labels
      · right
        subst hk
        refine ⟨hk0, v₀, ?_, tsTouched_newValue hnv⟩
        simp only [hk0, hnv, tsObserve_none hv']
        exact lookupA_upsertA_self ..
      · left
        simp only [hk0, hnv, tsObserve_none hv']
        exact lookupA_upsertA_ne hk _ _

/-- The collection metadata is never changed by `observe`. -/
theorem collectionObserve_meta (c : timeseriesCollection) (o : observation) :
    (collectionObserve c o).1.typ = c.typ ∧
    (collectionObserve c o).1.help = c.help ∧
    (collectionObserve c o).1.buckets = c.buckets := by
  unfold collectionObserve
  cases hk0 : lookupA (makeTimeseriesKey (overwriteMeta c o).name
      (overwriteMeta c o).labels) c.values with
  | some w => simp [hk0]
  | none =>
    cases hnv : newTimeseriesValue c.typ (overwriteMeta c o) with
    | error e => simp [hk0, hnv]
    | ok v₀ => simp [hk0, hnv]

/-- Series lookup through the whole registry. -/
def lookupSeries (u : Universe) (n k : Str) : Option timeseriesValue :=
  (lookupA n u.collections).bind (fun c => lookupA k c.values)

/-- Registry with one family deleted (specification device for "the family
contributes nothing to the output"). -/
def eraseFamily (u : Universe) (n : Str) : Universe :=
  ⟨u.collections.filter (fun kv => decide (kv.1 ≠ n))⟩

/-- Master lemma: a valueless observation leaves every existing series
untouched and can only add fresh untouched series. -/
theorem universeObserve_decl (u : Universe) (o : observation)
    (hv : o.value = none) (n k : Str) :
    lookupSeries (universeObserve u o).1 n k = lookupSeries u n k ∨
    (lookupSeries u n k = none ∧
      ∃ v₀, lookupSeries (universeObserve u o).1 n k = some v₀ ∧
        tsTouched v₀ = false) := by
  simp only [universeObserve, lookupSeries]
  by_cases hn : n = o.name
  · subst hn
    cases hc : lookupA o.name u.collections with
    | some c =>
      simp only [lookupA_upsertA_self, Option.some_bind]
      exact collectionObserve_decl c o hv k
    | none =>
      cases hnc : newTimeseriesCollection o.type o.help o.buckets with
      | error e =>
        left
        simp only [hc]
      | ok c =>
        have hempty : c.values = [] := by
          unfold newTimeseriesCollection at hnc
          split_ifs at hnc
          injection hnc with hnc
          rw [← hnc]
        simp only [hc, lookupA_upsertA_self, Option.some_bind, Option.none_bind]
        rcases collectionObserve_decl c o hv k with h | ⟨h1, h2⟩
        · left
          rw [h, hempty]
          rfl
        · right
          exact ⟨trivial, h2⟩
  · cases hc : lookupA o.name u.collections with
    | some c =>
      left
      simp only [lookupA_upsertA_ne hn]
    | none =>
      cases hnc : newTimeseriesCollection o.type o.help o.buckets with
      | error e => left; rfl
      | ok c =>
        left
        simp only [lookupA_upsertA_ne hn]

/-- `any` only depends on the multiset of elements. -/
theorem any_congr_perm {α : Type} (f : α → Bool) {l₁ l₂ : List α}
    (h : l₁.Perm l₂) : l₁.any f = l₂.any f := by
  have hmem : ∀ x, x ∈ l₁ ↔ x ∈ l₂ := fun x => h.mem_iff
  cases hb : l₂.any f
  · simp only [List.any_eq_false] at hb ⊢
    intro x hx
    exact hb x ((hmem x).mp hx)
  · simp only [List.any_eq_true] at hb ⊢
    obtain ⟨x, hx, hfx⟩ := hb
    exact ⟨x, (hmem x).mpr hx, hfx⟩

/-- The kind stored in a collection is always one of the three valid kinds
(`newTimeseriesCollection` enforces this at creation). -/
def typValid (c : timeseriesCollection) : Prop :=
  c.typ = str "counter" ∨ c.typ = str "gauge" ∨ c.typ = str "histogram"

instance (c : timeseriesCollection) : Decidable (typValid c) :=
  inferInstanceAs (Decidable (_ ∨ _ ∨ _))

theorem newTimeseriesValue_ok (typ : Str) (o : observation) (hname : o.name ≠ [])
    (ht : typ = str "counter" ∨ typ = str "gauge" ∨ typ = str "histogram") :
    ∃ v, newTimeseriesValue typ o = .ok v := by
  unfold newTimeseriesValue
  rcases ht with h | h | h <;> subst h
  · exact ⟨_, by rw [if_neg hname, if_pos rfl]⟩
  · exact ⟨_, by rw [if_neg hname, if_neg (by decide), if_pos rfl]⟩
  · exact ⟨_, by rw [if_neg hname, if_neg (by decide), if_neg (by decide), if_pos rfl]⟩

theorem seriesBody_congr_perm {v₁ v₂ : List (Str × timeseriesValue)}
    (h : v₁.Perm v₂) (nd : (keysA v₁).Nodup) :
    seriesBody v₁ = seriesBody v₂ := by
  unfold seriesBody
  rw [sortStrs_congr (show (keysA v₁).Perm (keysA v₂) from h.map Prod.fst)]
  exact congrArg List.flatten
    (List.map_congr_left (fun m _ => by rw [lookupA_congr m h nd]))

theorem seriesBody_drop_untouched {values : List (Str × timeseriesValue)}
    {k : Str} {v : timeseriesValue} (hlk : lookupA k values = some v)
    (htouch : tsTouched v = false) :
    seriesBody (values.filter (fun kv => decide (kv.1 ≠ k))) = seriesBody values := by
  unfold seriesBody
  rw [keysA_filter_ne_key, sortStrs_filter]
  refine flatten_map_congr_drop _ _ k (sortStrs (keysA values)) ?_ ?_
  · intro x hx
    simp only [lookupA_filter_ne hx]
  · simp [hlk, htouch]

/-! ### Example observations used by the concrete test cases -/

/-- An observation carrying only a value (default op, no metadata). -/
def obsSet (v : ℚ) : observation := { obsZero with value := some (.finite v) }

/-- An observation carrying a value with the gauge `add` op. -/
def obsAdd (v : ℚ) : observation :=
  { obsZero with op := str "add", value := some (.finite v) }

/-- The declaration of the C1 example family: histogram with buckets 0.5, 1, 2. -/
def c1Decl : observation :=
  { obsZero with
    name := str "h"
    type := str "histogram"
    help := str "H"
    buckets := [.finite 0.5, .finite 1, .finite 2] }

/-- The C1 example series after observing 0.123, 0.234, 0.501, 8.0. -/
def c1Hist : histogram :=
  List.foldl histogramObserve (newHistogram c1Decl)
    [obsSet 0.123, obsSet 0.234, obsSet 0.501, obsSet 8.0]

/-! ### Claims -/

/-- C1: applying an observation carrying value `v` to a histogram adds `v`
to the sum, bumps the count, and bumps every declared bucket whose upper
bound is at least `v` (cumulative); the rendered `+Inf` bucket line (the
line right after the declared buckets) reports the total count; and for
buckets [0.5, 1, 2] with observed values [0.123, 0.234, 0.501, 8.0] the
bucket counts are 2, 3, 3, the total count is 4, and the sum is the
arithmetic sum 8.858. -/
theorem c1_histogram_cumulative :
    (∀ (h : histogram) (o : observation) (v : GoFloat), o.value = some v →
        histogramObserve h o =
          { h with
            sum := goAdd h.sum v
            count := h.count + 1
            buckets := h.buckets.map (fun b =>
              if goLe v b.max then { b with count := b.count + 1 } else b) }) ∧
    (∀ h : histogram, (histLines h)[h.buckets.length]? =
        some (h.n ++ str "_bucket" ++
          renderLabels (upsertA (str "le") (str "+Inf") h.labels) ++
          ' ' :: natStr h.count ++ ['\n'])) ∧
    (c1Hist.buckets.map bucket.count = [2, 3, 3] ∧
     c1Hist.count = 4 ∧
     c1Hist.sum = .finite (0.123 + 0.234 + 0.501 + 8.0) ∧
     c1Hist.sum = .finite 8.858) := by
  refine ⟨?_, ?_, ?_⟩
  · intro h o v hv
    simp [histogramObserve, hv]
  · intro h
    simp only [histLines]
    rw [List.getElem?_append_right (by simp)]
    simp
  · refine ⟨?_, ?_, ?_, ?_⟩ <;>
      norm_num [c1Hist, c1Decl, obsSet, obsZero, newHistogram, histogramObserve,
        goAdd, goLe]

/-- Witness for C1 at a concrete histogram and observation. -/
theorem c1_histogram_cumulative_witness :
    (obsSet 1).value = some (.finite 1) ∧
    histogramObserve (newHistogram c1Decl) (obsSet 1) =
      { newHistogram c1Decl with
        sum := goAdd (newHistogram c1Decl).sum (.finite 1)
        count := (newHistogram c1Decl).count + 1
        buckets := (newHistogram c1Decl).buckets.map (fun b =>
          if goLe (.finite 1) b.max then { b with count := b.count + 1 } else b) } :=
  ⟨rfl, c1_histogram_cumulative.1 (newHistogram c1Decl) (obsSet 1) (.finite 1) rfl⟩

/-- C5: a gauge observation carrying a value adds when `op == "add"` and
replaces for any other op; after set(1), set(2) the value is 2; after
add(1), add(2) it is 3. -/
theorem c5_gauge_set_add :
    (∀ (g : gauge) (o : observation) (v : GoFloat), o.value = some v →
        gaugeObserve g o =
          if o.op = str "add" then { g with value := goAdd g.value v, touch := true }
          else { g with value := v, touch := true }) ∧
    (gaugeObserve (gaugeObserve (newGauge obsZero) (obsSet 1)) (obsSet 2)).value =
      .finite 2 ∧
    (gaugeObserve (gaugeObserve (newGauge obsZero) (obsAdd 1)) (obsAdd 2)).value =
      .finite 3 := by
  refine ⟨?_, ?_, ?_⟩
  · intro g o v hv
    simp [gaugeObserve, hv]
  · rfl
  · simp only [gaugeObserve, obsAdd, obsZero, newGauge, goAdd, eq_self_iff_true, if_true]
    norm_num

/-- Witness for C5 at a concrete gauge and observation. -/
theorem c5_gauge_set_add_witness :
    (obsSet 7).value = some (.finite 7) ∧
    gaugeObserve (newGauge obsZero) (obsSet 7) =
      (if (obsSet 7).op = str "add" then
        { newGauge obsZero with
          value := goAdd (newGauge obsZero).value (.finite 7)
          touch := true }
      else { newGauge obsZero with value := .finite 7, touch := true }) :=
  ⟨rfl, c5_gauge_set_add.1 (newGauge obsZero) (obsSet 7) (.finite 7) rfl⟩

/-- C6 counterexample: a counter observation carrying value -1 strictly
decreases the accumulator, so counter accumulation is not monotone for
arbitrary values: after observing -1 on a fresh counter, the new value is
not `>=` the old one. -/
theorem c6_counter_not_monotone_cx :
    goLe (newCounter obsZero).value
      ((counterObserve (newCounter obsZero) (obsSet (-1))).value) = false := by
  norm_num [newCounter, counterObserve, obsSet, obsZero, goAdd, goLe]

/-- C6 amended: counter accumulation is always addition with the op
ignored and the touched flag set, and it is monotone provided the observed
value is a finite nonnegative number and the accumulator is not NaN (the
code never rejects negative or non-finite values, so the unrestricted
claim fails, see the counterexample). -/
theorem c6_counter_monotone_amended :
    ∀ (c : counter) (o : observation) (q : ℚ), o.value = some (.finite q) →
      0 ≤ q → c.value ≠ .nan →
      (counterObserve c o).value = goAdd c.value (.finite q) ∧
      (counterObserve c o).touch = true ∧
      goLe c.value ((counterObserve c o).value) = true := by
  intro c o q hv hq hnan
  refine ⟨by simp [counterObserve, hv], by simp [counterObserve, hv], ?_⟩
  simp only [counterObserve, hv]
  cases hcv : c.value with
  | finite a =>
    simp only [goAdd, goLe, decide_eq_true_eq]
    exact le_add_of_nonneg_right hq
  | pinf => simp [goAdd, goLe]
  | ninf => simp [goAdd, goLe]
  | nan => exact absurd hcv hnan

/-- Witness for C6 amended at a concrete counter and observation. -/
theorem c6_counter_monotone_amended_witness :
    (obsSet 2).value = some (.finite 2) ∧ (0 : ℚ) ≤ 2 ∧
    (newCounter obsZero).value ≠ .nan ∧
    goLe (newCounter obsZero).value
      ((counterObserve (newCounter obsZero) (obsSet 2)).value) = true :=
  ⟨rfl, by norm_num, by simp [newCounter],
   (c6_counter_monotone_amended (newCounter obsZero) (obsSet 2) 2 rfl (by norm_num)
     (by simp [newCounter])).2.2⟩

/-- C7: the timeseries key only depends on the set of label pairs, not on
their encounter order, because label names are sorted before
serialization; in particular the two orderings of
code="200", region="us" give the same key. -/
theorem c7_makeTimeseriesKey_order_independent :
    (∀ (name : Str) (l₁ l₂ : List (Str × Str)),
        (keysA l₁).Nodup → (keysA l₂).Nodup → (∀ p, p ∈ l₁ ↔ p ∈ l₂) →
        makeTimeseriesKey name l₁ = makeTimeseriesKey name l₂) ∧
    makeTimeseriesKey (str "http_requests_total")
        [(str "code", str "200"), (str "region", str "us")] =
      makeTimeseriesKey (str "http_requests_total")
        [(str "region", str "us"), (str "code", str "200")] := by
  constructor
  · intro name l₁ l₂ nd₁ nd₂ hmem
    have hp : l₁.Perm l₂ := (List.perm_ext_iff_of_nodup nd₁.of_map nd₂.of_map).mpr hmem
    have hkeys : sortLabelKeys l₁ = sortLabelKeys l₂ := by
      unfold sortLabelKeys
      exact sortStrs_congr (hp.map Prod.fst)
    have hmap : (sortLabelKeys l₂).map (labelPart l₁) =
        (sortLabelKeys l₂).map (labelPart l₂) :=
      List.map_congr_left (fun k _ => by unfold labelPart; rw [lookupA_congr k hp nd₁])
    unfold makeTimeseriesKey renderLabels
    rw [hkeys, hmap]
  · decide

/-- Witness for C7 at two concrete label lists that are permutations of
each other. -/
theorem c7_makeTimeseriesKey_order_independent_witness :
    (keysA [(str "a", str "1"), (str "b", str "2")]).Nodup ∧
    (keysA [(str "b", str "2"), (str "a", str "1")]).Nodup ∧
    (∀ p, p ∈ [(str "a", str "1"), (str "b", str "2")] ↔
          p ∈ [(str "b", str "2"), (str "a", str "1")]) ∧
    makeTimeseriesKey (str "m") [(str "a", str "1"), (str "b", str "2")] =
      makeTimeseriesKey (str "m") [(str "b", str "2"), (str "a", str "1")] := by
  refine ⟨by decide, by decide, ?_, ?_⟩
  · intro p
    simp only [List.mem_cons, List.not_mem_nil, or_false]
    tauto
  · exact c7_makeTimeseriesKey_order_independent.1 (str "m") _ _ (by decide) (by decide)
      (by intro p; simp only [List.mem_cons, List.not_mem_nil, or_false]; tauto)

/-- A pure gauge declaration for the C2 witness. -/
def c2Decl : observation :=
  { obsZero with name := str "g", type := str "gauge", help := str "x" }

/-- The registry after loading only that declaration. -/
def c2U : Universe := (universeObserve emptyUniverse c2Decl).1

/-- The family that declaration creates: metadata fixed, one untouched series. -/
def c2Coll : timeseriesCollection :=
  ⟨str "gauge", str "x", [],
   [(makeTimeseriesKey (str "g") [], .gauge ⟨str "g", str "x", [], false, .finite 0⟩)]⟩

/-- C2: an observation without a value never mutates any existing series
and never sets a touched flag (it can only create fresh untouched series);
a family none of whose series is touched contributes nothing to the
rendered document (not even HELP/TYPE lines); and inside a rendered family
an untouched series is omitted (dropping it changes nothing). -/
theorem c2_declarations_never_touch :
    (∀ (u : Universe) (o : observation), o.value = none →
        (∀ n k v, lookupSeries u n k = some v →
            lookupSeries (universeObserve u o).1 n k = some v) ∧
        (∀ n k v', lookupSeries (universeObserve u o).1 n k = some v' →
            lookupSeries u n k = some v' ∨ tsTouched v' = false)) ∧
    (∀ (u : Universe) (n : Str) (c : timeseriesCollection),
        lookupA n u.collections = some c → collTouched c = false →
        renderUniverse u = renderUniverse (eraseFamily u n)) ∧
    (∀ (n k : Str) (c : timeseriesCollection) (v : timeseriesValue),
        (keysA c.values).Nodup → lookupA k c.values = some v →
        tsTouched v = false →
        renderCollection n c =
          renderCollection n
            { c with values := c.values.filter (fun kv => decide (kv.1 ≠ k)) }) := by
  refine ⟨?_, ?_, ?_⟩
  · intro u o hv
    constructor
    · intro n k v hlk
      rcases universeObserve_decl u o hv n k with h | ⟨h1, _⟩
      · rw [h]
        exact hlk
      · rw [hlk] at h1
        exact absurd h1 (by simp)
    · intro n k v' hlk'
      rcases universeObserve_decl u o hv n k with h | ⟨h1, v₀, h2, h3⟩
      · left
        rw [← h]
        exact hlk'
      · right
        rw [hlk'] at h2
        injection h2 with h2
        rw [h2]
        exact h3
  · intro u n c hlk htouch
    unfold renderUniverse eraseFamily
    simp only []
    rw [keysA_filter_ne_key, sortStrs_filter]
    refine (flatten_map_congr_drop _ _ n (sortStrs (keysA u.collections)) ?_ ?_).symm
    · intro x hx
      rw [lookupA_filter_ne hx]
    · rw [hlk]
      simp [renderCollection, htouch]
  · intro n k c v nd hlk htouch
    have hall : ∀ kv ∈ c.values, kv.1 = k → tsTouched kv.2 = false := by
      intro kv hm hk
      have hmv : (k, kv.2) ∈ c.values := by
        have : kv = (k, kv.2) := Prod.ext hk rfl
        exact this ▸ hm
      have := mem_eq_of_lookupA_nodup nd hmv
      rw [hlk] at this
      injection this with this
      rw [← this]
      exact htouch
    have hany : collTouched { c with values := c.values.filter (fun kv => decide (kv.1 ≠ k)) } =
        collTouched c := by
      simp only [collTouched]
      exact any_filter_key_false (fun kv => tsTouched kv.2) k c.values hall
    simp only [renderCollection]
    rw [hany]
    by_cases ht : collTouched c
    · rw [if_pos ht, if_pos ht]
      rw [seriesBody_drop_untouched hlk htouch]
    · rw [if_neg ht, if_neg ht]

/-- Witness for C2 at a registry holding one declared-but-unobserved
gauge family. -/
theorem c2_declarations_never_touch_witness :
    lookupA (str "g") c2U.collections = some c2Coll ∧
    collTouched c2Coll = false ∧
    renderUniverse c2U = renderUniverse (eraseFamily c2U (str "g")) :=
  ⟨by decide, by decide,
   c2_declarations_never_touch.2.1 c2U (str "g") c2Coll (by decide) (by decide)⟩

/-- A counter declaration under the empty metric name: the collection is
created (collection creation never validates the name), but the series
creation then fails, so the observe call returns an error while the family
stays in the map. -/
def c3emptyDecl1 : observation := { obsZero with type := str "counter", help := str "x" }

/-- A re-declaration of the same (empty-named) family with different kind
and help. -/
def c3emptyDecl2 : observation := { obsZero with type := str "gauge", help := str "y" }

/-- C3 counterexample: after a first declaration under the empty name the
family exists, and re-declaring it with a different kind and help string
DOES raise an error (`a new timeseries value requires a name`), refuting
the claim's "no error is raised" for every subsequent observation under an
existing name. -/
theorem c3_redeclare_error_cx :
    (lookupA [] ((universeObserve emptyUniverse c3emptyDecl1).1).collections).isSome =
      true ∧
    ((universeObserve ((universeObserve emptyUniverse c3emptyDecl1).1)
        c3emptyDecl2).2).isSome = true := by
  decide

/-- C3 amended: for an existing family under a NON-EMPTY name, the
incoming observation's kind/help/buckets are overwritten with the stored
family values (overwriting is idempotent, so the observation is processed
exactly as if it had carried the stored metadata), no error is raised, and
the family's stored metadata persists unchanged — so a re-declaration with
a different kind or help is a no-op on metadata and the observation is
applied under the original kind.  (For the empty name, reachable because
collection creation never validates names, every observe errors — see the
counterexample.) -/
theorem c3_first_writer_wins_amended :
    ∀ (u : Universe) (o : observation) (c : timeseriesCollection),
      lookupA o.name u.collections = some c → typValid c → o.name ≠ [] →
      collectionObserve c o = collectionObserve c (overwriteMeta c o) ∧
      (universeObserve u o).2 = none ∧
      ∃ c', lookupA o.name ((universeObserve u o).1).collections = some c' ∧
        c'.typ = c.typ ∧ c'.help = c.help ∧ c'.buckets = c.buckets := by
  intro u o c hlk htv hname
  have herr : (collectionObserve c o).2 = none := by
    unfold collectionObserve
    cases hk0 : lookupA (makeTimeseriesKey (overwriteMeta c o).name
        (overwriteMeta c o).labels) c.values with
    | some w => simp [hk0]
    | none =>
      obtain ⟨v, hv⟩ := newTimeseriesValue_ok c.typ (overwriteMeta c o) hname htv
      simp [hk0, hv]
  refine ⟨rfl, ?_, ?_⟩
  · unfold universeObserve
    simp only [hlk]
    exact herr
  · refine ⟨(collectionObserve c o).1, ?_, (collectionObserve_meta c o).1,
      (collectionObserve_meta c o).2.1, (collectionObserve_meta c o).2.2⟩
    unfold universeObserve
    simp only [hlk]
    exact lookupA_upsertA_self ..

/-- The C3 witness family: a counter declared as "foo". -/
def c3U : Universe :=
  (universeObserve emptyUniverse
    { obsZero with name := str "foo", type := str "counter", help := str "x" }).1

/-- What that declaration stores. -/
def c3Coll : timeseriesCollection :=
  ⟨str "counter", str "x", [],
   [(makeTimeseriesKey (str "foo") [], .counter ⟨str "foo", str "x", [], false, .finite 0⟩)]⟩

/-- A conflicting re-declaration of "foo". -/
def c3Redecl : observation :=
  { obsZero with name := str "foo", type := str "gauge", help := str "y" }

/-- Witness for C3 amended: re-declaring the "foo" counter as a gauge
raises no error. -/
theorem c3_first_writer_wins_amended_witness :
    lookupA c3Redecl.name c3U.collections = some c3Coll ∧
    typValid c3Coll ∧ c3Redecl.name ≠ [] ∧
    (universeObserve c3U c3Redecl).2 = none :=
  ⟨by decide, by decide, by decide,
   (c3_first_writer_wins_amended c3U c3Redecl c3Coll (by decide) (by decide)
     (by decide)).2.1⟩

/-- C4: scraping is an idempotent read (the handler returns the rendered
document and leaves the state unchanged, so two consecutive scrapes are
byte-identical); the document is independent of the (Go-map) insertion
order of families and of series within a family; families are visited in
strictly increasing bytewise name order and series in strictly increasing
key order; and every rendered family block is exactly one HELP line, one
TYPE line, the series lines, and one terminating blank line. -/
theorem c4_render_idempotent_sorted :
    (∀ u : Universe, (serveScrape u).2 = u ∧
        (serveScrape ((serveScrape u).2)).1 = (serveScrape u).1) ∧
    (∀ u₁ u₂ : Universe, (keysA u₁.collections).Nodup →
        u₁.collections.Perm u₂.collections →
        renderUniverse u₁ = renderUniverse u₂) ∧
    (∀ (n : Str) (c₁ c₂ : timeseriesCollection), (keysA c₁.values).Nodup →
        c₁.typ = c₂.typ → c₁.help = c₂.help → c₁.values.Perm c₂.values →
        renderCollection n c₁ = renderCollection n c₂) ∧
    (∀ u : Universe, (keysA u.collections).Nodup →
        (sortStrs (keysA u.collections)).Pairwise
          (fun a b => lexLe a b = true ∧ a ≠ b)) ∧
    (∀ c : timeseriesCollection, (keysA c.values).Nodup →
        (sortStrs (keysA c.values)).Pairwise
          (fun a b => lexLe a b = true ∧ a ≠ b)) ∧
    (∀ (n : Str) (c : timeseriesCollection), collTouched c = true →
        renderCollection n c =
          (str "# HELP " ++ n ++ ' ' :: c.help ++ ['\n']) ++
          ((str "# TYPE " ++ n ++ ' ' :: c.typ ++ ['\n']) ++
          (seriesBody c.values ++ ['\n']))) := by
  refine ⟨fun u => ⟨rfl, rfl⟩, ?_, ?_, ?_, ?_, ?_⟩
  · intro u₁ u₂ nd hp
    unfold renderUniverse
    rw [sortStrs_congr (show (keysA u₁.collections).Perm (keysA u₂.collections) from
      hp.map Prod.fst)]
    exact congrArg List.flatten
      (List.map_congr_left (fun m _ => by rw [lookupA_congr m hp nd]))
  · intro n c₁ c₂ nd htyp hhelp hp
    unfold renderCollection
    have htch : collTouched c₁ = collTouched c₂ := any_congr_perm _ hp
    rw [htch, htyp, hhelp, seriesBody_congr_perm hp nd]
  · intro u nd
    have h1 : (sortStrs (keysA u.collections)).Pairwise strle :=
      sortStrs_sorted _
    have h2 : (sortStrs (keysA u.collections)).Nodup :=
      ((sortStrs_perm _).nodup_iff).mpr nd
    exact (h1.and h2).imp (fun hab => ⟨hab.1, hab.2⟩)
  · intro c nd
    have h1 : (sortStrs (keysA c.values)).Pairwise strle := sortStrs_sorted _
    have h2 : (sortStrs (keysA c.values)).Nodup :=
      ((sortStrs_perm _).nodup_iff).mpr nd
    exact (h1.and h2).imp (fun hab => ⟨hab.1, hab.2⟩)
  · intro n c ht
    unfold renderCollection
    rw [if_pos ht]
    simp [List.append_assoc]

/-- Two single-family universes differing only in insertion order, for the
C4 witness. -/
def c4CollA : timeseriesCollection := ⟨str "counter", str "ha", [], []⟩

/-- Second family for the C4 witness. -/
def c4CollB : timeseriesCollection := ⟨str "gauge", str "hb", [], []⟩

/-- The two-family registry, one insertion order. -/
def c4U1 : Universe := ⟨[(str "a", c4CollA), (str "b", c4CollB)]⟩

/-- The same registry, the other insertion order. -/
def c4U2 : Universe := ⟨[(str "b", c4CollB), (str "a", c4CollA)]⟩

/-- Witness for C4 on two concrete permuted registries. -/
theorem c4_render_idempotent_sorted_witness :
    (keysA c4U1.collections).Nodup ∧
    c4U1.collections.Perm c4U2.collections ∧
    renderUniverse c4U1 = renderUniverse c4U2 :=
  ⟨by decide, List.Perm.swap _ _ _,
   c4_render_idempotent_sorted.2.1 c4U1 c4U2 (by decide) (List.Perm.swap _ _ _)⟩

/-! ### The line protocol parser (parse.go / forward.go)

The parser works on raw bytes; the model restricts attention to ASCII
bytes (one `Char` per byte).  `bytes.TrimSpace` trims `unicode.IsSpace`
characters; the model trims the ASCII whitespace set, which coincides on
ASCII input. -/

/-- ASCII whitespace, the ASCII fragment of `unicode.IsSpace`. -/
def isSpc (c : Char) : Bool :=
  c = ' ' ∨ c = '\t' ∨ c = '\n' ∨ c = '\x0b' ∨ c = '\x0c' ∨ c = '\r'

/-- `bytes.TrimSpace` (ASCII fragment). -/
def goTrimSpace (l : Str) : Str :=
  ((l.dropWhile isSpc).reverse.dropWhile isSpc).reverse

/-- `bytes.LastIndexByte`, with `none` for Go's -1. -/
def lastIndexOf (c : Char) : Str → Option Nat
  | [] => none
  | x :: xs =>
    match lastIndexOf c xs with
    | some i => some (i + 1)
    | none => if x = c then some 0 else none

/-- `bytes.IndexByte`, with `none` for Go's -1. -/
def indexOf (c : Char) (l : Str) : Option Nat := l.findIdx? (fun x => x = c)

/-- strconv's `lower`: ASCII lowercasing by setting bit 0x20. -/
def low (c : Char) : Char := Char.ofNat (c.toNat % 128 ||| 32)

/-- Case-insensitive comparison against a lowercase literal. -/
def eqFold (l : Str) (t : String) : Bool := l.map low = t.data

def isDig (c : Char) : Bool := '0' ≤ c ∧ c ≤ '9'

def isHexDig (c : Char) : Bool := isDig c ∨ ('a' ≤ low c ∧ low c ≤ 'f')

def digVal (c : Char) : Nat :=
  if isDig c then c.toNat - 48 else (low c).toNat - 87

/-- strconv `special`: the strings (case-insensitively) accepted as IEEE
special values — `nan` unsigned, `inf`/`infinity` optionally signed. -/
def goSpecial (s : Str) : Option GoFloat :=
  match s with
  | [] => none
  | c :: rest =>
    if c = '+' then
      if eqFold rest "inf" ∨ eqFold rest "infinity" then some .pinf else none
    else if c = '-' then
      if eqFold rest "inf" ∨ eqFold rest "infinity" then some .ninf else none
    else if low c = 'n' then
      if eqFold s "nan" then some .nan else none
    else if low c = 'i' then
      if eqFold s "inf" ∨ eqFold s "infinity" then some .pinf else none
    else none

/-- Mantissa scanner state of strconv `readFloat`: accumulated digits `m`,
number of fraction digits `f`, and the dot/digit flags. -/
structure MantState where
  m : Nat
  f : Nat
  sawdot : Bool
  sawdigits : Bool

/-- The mantissa loop of `readFloat`: consume digits of the base, at most
one dot, and underscores (validated separately by `underscoreOK`);
return the state and the unconsumed suffix. -/
def scanMant (hex : Bool) : Str → MantState → MantState × Str
  | [], st => (st, [])
  | c :: rest, st =>
    if c = '_' then scanMant hex rest st
    else if c = '.' then
      if st.sawdot then (st, c :: rest)
      else scanMant hex rest { st with sawdot := true }
    else if (if hex then isHexDig c else isDig c) then
      scanMant hex rest
        { st with
          m := st.m * (if hex then 16 else 10) + digVal c
          f := if st.sawdot then st.f + 1 else st.f
          sawdigits := true }
    else (st, c :: rest)

/-- Exponent digit scanner: at least one leading decimal digit, then
digits and underscores; returns the value and the unconsumed suffix. -/
def scanExpDigits : Str → Nat → Str × Nat
  | [], acc => ([], acc)
  | c :: rest, acc =>
    if isDig c then scanExpDigits rest (acc * 10 + digVal c)
    else if c = '_' then scanExpDigits rest acc
    else (c :: rest, acc)

/-- The `underscoreOK` loop of strconv: `saw` is the class of the last
scanned character (as in the Go source: a digit `0`, an underscore `_`,
anything else `!`, or `^` at the start). -/
def uokLoop (hex : Bool) : Str → Char → Bool
  | [], saw => saw ≠ '_'
  | c :: rest, saw =>
    if isDig c ∨ (hex ∧ ('a' ≤ low c ∧ low c ≤ 'f')) then uokLoop hex rest '0'
    else if c = '_' then
      if saw ≠ '0' then false else uokLoop hex rest '_'
    else if saw = '_' then false
    else uokLoop hex rest '!'

/-- strconv `underscoreOK`: underscores must separate digits (or follow a
base prefix). -/
def underscoreOK (s : Str) : Bool :=
  let s1 := match s with
    | c :: rest => if c = '-' ∨ c = '+' then rest else s
    | [] => s
  match s1 with
  | '0' :: b :: rest =>
    if low b = 'b' ∨ low b = 'o' ∨ low b = 'x' then uokLoop (low b = 'x') rest '0'
    else uokLoop false s1 '^'
  | _ => uokLoop false s1 '^'

/-- Build the rational value of a scanned mantissa/exponent: `m * base^e`
with `e = exp - f·(digit shift)`, all in exact arithmetic. -/
def mantValue (neg : Bool) (m : Nat) (base : Nat) (e : Int) : GoFloat :=
  let sgn : Int := if neg then -1 else 1
  match e with
  | .ofNat k => .finite (mkRat (sgn * (m * base ^ k : Nat)) 1)
  | .negSucc k => .finite (mkRat (sgn * m) (base ^ (k + 1)))

/-- strconv `readFloat` (syntax and exact value; the final rounding to
binary and the overflow or underflow to `±Inf`/`ErrRange` are not modelled — no
theorem evaluates this function outside the exactly representable
range). -/
def goReadFloat (s : Str) : Option GoFloat :=
  let (neg, s1) := match s with
    | '-' :: r => (true, r)
    | '+' :: r => (false, r)
    | _ => (false, s)
  let (hex, s2) := match s1 with
    | '0' :: b :: r => if low b = 'x' then (true, r) else (false, s1)
    | _ => (false, s1)
  let (st, s3) := scanMant hex s2 ⟨0, 0, false, false⟩
  if st.sawdigits = false then none
  else if hex then
    match s3 with
    | p :: rest =>
      if low p = 'p' then
        let (esgn, rest2) := match rest with
          | '-' :: r => (true, r)
          | '+' :: r => (false, r)
          | _ => (false, rest)
        match rest2 with
        | d :: _ =>
          if isDig d then
            let (rest3, e) := scanExpDigits rest2 0
            if rest3 = [] then
              some (mantValue neg st.m 2
                ((if esgn then -(e : Int) else (e : Int)) - 4 * st.f))
            else none
          else none
        | [] => none
      else none
    | [] => none
  else
    match s3 with
    | [] => some (mantValue neg st.m 10 (-(st.f : Int)))
    | e :: rest =>
      if low e = 'e' then
        let (esgn, rest2) := match rest with
          | '-' :: r => (true, r)
          | '+' :: r => (false, r)
          | _ => (false, rest)
        match rest2 with
        | d :: _ =>
          if isDig d then
            let (rest3, ev) := scanExpDigits rest2 0
            if rest3 = [] then
              some (mantValue neg st.m 10
                ((if esgn then -(ev : Int) else (ev : Int)) - (st.f : Int)))
            else none
          else none
        | [] => none
      else none

/-- strconv `ParseFloat` on the whole token: specials first, then the
number syntax, then the underscore placement check. -/
def goParseFloat (s : Str) : Option GoFloat :=
  if s = [] then none
  else
    match goSpecial s with
    | some v => some v
    | none =>
      match goReadFloat s with
      | none => none
      | some v => if s.contains '_' ∧ underscoreOK s = false then none else some v

/-- The outcome of `prometheusUnmarshal`: a decoded observation, a
returned error, or a runtime fault (Go panic) from an out-of-range index
or slice. -/
inductive PResult where
  | ok (o : observation)
  | err (msg : String)
  | oob (msg : String)
deriving DecidableEq

/-- Outcome of the label-pair loop. -/
inductive LabRes where
  | ok (m : List (Str × Str))
  | err
  | oob
deriving DecidableEq

/-- The label-pair loop of `prometheusUnmarshal`: a comma token without
`=` is skipped; with `=`, the value token is checked to be wrapped in
quotes via `v[0]` and `v[len(v)-1]` — `v[0]` faults on an empty token,
and the quote-stripping slice `v[1:len(v)-1]` faults when the token is a
single quote character. -/
def buildLabels : List Str → List (Str × Str) → LabRes
  | [], m => .ok m
  | pair :: rest, m =>
    match pair.findIdx? (fun c => c = '=') with
    | none => buildLabels rest m
    | some z =>
      let k := pair.take z
      let v := pair.drop (z + 1)
      match v with
      | [] => .oob
      | c0 :: vrest =>
        if c0 ≠ '"' ∨ v.getLast? ≠ some '"' then .err
        else if vrest = [] then .oob
        else buildLabels rest (upsertA k ((v.drop 1).take (v.length - 2)) m)

/-- `prometheusUnmarshal` of parse.go (error message texts abbreviated to
avoid quotation; errors are distinguished by branch, not by text). -/
def prometheusUnmarshal (p0 : Str) : PResult :=
  let p := goTrimSpace p0
  match lastIndexOf ' ' p with
  | none => .err "bad format: could not find space"
  | some x =>
    if x < 1 then .err "bad format: could not find space"
    else
      let id := goTrimSpace (p.take x)
      let val := goTrimSpace (p.drop (x + 1))
      match goParseFloat val with
      | none => .err "bad value"
      | some value =>
        match indexOf '\x7b' id with
        | none => .err "bad format: could not find opening brace"
        | some y =>
          if id.getLast? ≠ some '\x7d' then
            .err "bad format: could not find terminating brace"
          else
            let name := id.take y
            let labels := (id.take (id.length - 1)).drop (y + 1)
            if labels.contains ' ' then .err "bad format: "
            else
              match buildLabels (labels.splitOn ',') [] with
              | .err => .err "bad format: label value must be wrapped in quotes"
              | .oob => .oob "runtime error: index out of range"
              | .ok m =>
                .ok { obsZero with name := name, labels := m, value := some value }

/-! ### Model of `encoding/json.Unmarshal` into an `observation` -/

/-- JSON values. -/
inductive JValue where
  | jnull
  | jbool (b : Bool)
  | jnum (q : ℚ)
  | jstr (s : Str)
  | jarr (vs : List JValue)
  | jobj (fields : List (Str × JValue))

/-- JSON whitespace (space, tab, newline, carriage return). -/
def jsonSkipWs (l : Str) : Str :=
  l.dropWhile (fun c => c = ' ' ∨ c = '\t' ∨ c = '\n' ∨ c = '\r')

/-- Four hex digits, for `\uXXXX` escapes. -/
def hex4 : Str → Option (Nat × Str)
  | a :: b :: c :: d :: rest =>
    if isHexDig a ∧ isHexDig b ∧ isHexDig c ∧ isHexDig d then
      some (((digVal a * 16 + digVal b) * 16 + digVal c) * 16 + digVal d, rest)
    else none
  | _ => none

/-- JSON string body parser (after the opening quote); surrogate-pair
recombination is not modelled. -/
def parseJStringF : Nat → Str → Option (Str × Str)
  | 0, _ => none
  | fuel + 1, s =>
    match s with
    | [] => none
    | c :: rest =>
      if c = '"' then some ([], rest)
      else if c = '\\' then
        match rest with
        | [] => none
        | e :: rest2 =>
          let dec : Option (Char × Str) :=
            if e = '"' then some ('"', rest2)
            else if e = '\\' then some ('\\', rest2)
            else if e = '/' then some ('/', rest2)
            else if e = 'b' then some ('\x08', rest2)
            else if e = 'f' then some ('\x0c', rest2)
            else if e = 'n' then some ('\n', rest2)
            else if e = 'r' then some ('\r', rest2)
            else if e = 't' then some ('\t', rest2)
            else if e = 'u' then
              match hex4 rest2 with
              | some (n, rest3) => some (Char.ofNat n, rest3)
              | none => none
            else none
          match dec with
          | none => none
          | some (ch, rest3) =>
            match parseJStringF fuel rest3 with
            | some (body, rest4) => some (ch :: body, rest4)
            | none => none
      else if c.toNat < 32 then none
      else
        match parseJStringF fuel rest with
        | some (body, rest') => some (c :: body, rest')
        | none => none

/-- Natural value of a digit string. -/
def digitsToNat (l : Str) : Nat := l.foldl (fun acc c => acc * 10 + digVal c) 0

/-- JSON number parser (strict JSON grammar: optional minus, no leading
zeros, optional fraction and exponent), with the exact rational value. -/
def parseJNumber (s : Str) : Option (ℚ × Str) :=
  let (neg, s1) := match s with
    | '-' :: r => (true, r)
    | _ => (false, s)
  match s1 with
  | [] => none
  | c :: _ =>
    if isDig c = false then none
    else
      let ids := s1.takeWhile isDig
      let s2 := s1.dropWhile isDig
      if 1 < ids.length ∧ ids.head? = some '0' then none
      else
        let fracRes : Option (Nat × Str) := match s2 with
          | '.' :: r =>
            let fd := r.takeWhile isDig
            if fd = [] then none else some (fd.length, r.dropWhile isDig)
          | _ => some (0, s2)
        match fracRes with
        | none => none
        | some (f, s3) =>
          let mant := digitsToNat (s1.takeWhile isDig ++
            (match s2 with
             | '.' :: r => r.takeWhile isDig
             | _ => []))
          let expRes : Option (Int × Str) := match s3 with
            | e :: r =>
              if low e = 'e' then
                let (esgn, r2) := match r with
                  | '-' :: rr => (true, rr)
                  | '+' :: rr => (false, rr)
                  | _ => (false, r)
                let ed := r2.takeWhile isDig
                if ed = [] then none
                else some (if esgn then -(digitsToNat ed : Int) else (digitsToNat ed : Int),
                  r2.dropWhile isDig)
              else some (0, s3)
            | [] => some (0, s3)
          match expRes with
          | none => none
          | some (e, s4) =>
            let sgn : Int := if neg then -1 else 1
            let q := match e - (f : Int) with
              | .ofNat k => mkRat (sgn * (mant * 10 ^ k : Nat)) 1
              | .negSucc k => mkRat (sgn * mant) (10 ^ (k + 1))
            some (q, s4)

/-- Parser mode: a value, the members of an object, or the elements of an
array (the accumulator and a flag for "no member parsed yet"). -/
inductive JMode where
  | value
  | members (acc : List (Str × JValue)) (first : Bool)
  | elems (acc : List JValue) (first : Bool)

/-- Recursive-descent JSON parser, fuelled to stay structurally
recursive; the fuel is an upper bound on nesting plus member count and is
always sufficient for the inputs supplied. -/
def parseJ : Nat → JMode → Str → Except String (JValue × Str)
  | 0, _, _ => .error "json: input too deep"
  | fuel + 1, .value, s0 =>
    let s := jsonSkipWs s0
    match s with
    | [] => .error "unexpected end of JSON input"
    | c :: rest =>
      if c = '\x7b' then parseJ fuel (.members [] true) rest
      else if c = '[' then parseJ fuel (.elems [] true) rest
      else if c = '"' then
        match parseJStringF (rest.length + 1) rest with
        | some (body, rest') => .ok (.jstr body, rest')
        | none => .error "bad string"
      else if c = 't' then
        match rest with
        | 'r' :: 'u' :: 'e' :: rest' => .ok (.jbool true, rest')
        | _ => .error "invalid character"
      else if c = 'f' then
        match rest with
        | 'a' :: 'l' :: 's' :: 'e' :: rest' => .ok (.jbool false, rest')
        | _ => .error "invalid character"
      else if c = 'n' then
        match rest with
        | 'u' :: 'l' :: 'l' :: rest' => .ok (.jnull, rest')
        | _ => .error "invalid character"
      else
        match parseJNumber s with
        | some (q, rest') => .ok (.jnum q, rest')
        | none => .error "invalid character"
  | fuel + 1, .members acc first, s0 =>
    let s := jsonSkipWs s0
    match s with
    | '\x7d' :: rest =>
      if first then .ok (.jobj acc, rest)
      else .error "invalid character after object member"
    | '"' :: rest =>
      match parseJStringF (rest.length + 1) rest with
      | none => .error "bad string"
      | some (key, rest2) =>
        match jsonSkipWs rest2 with
        | ':' :: rest3 =>
          match parseJ fuel .value rest3 with
          | .error e => .error e
          | .ok (v, rest4) =>
            match jsonSkipWs rest4 with
            | ',' :: rest5 => parseJ fuel (.members (acc ++ [(key, v)]) false) rest5
            | '\x7d' :: rest5 => .ok (.jobj (acc ++ [(key, v)]), rest5)
            | _ => .error "invalid character after object value"
        | _ => .error "expected colon"
    | _ =>
      if first then .error "invalid character at start of object"
      else
        match s with
        | '"' :: _ => .error "unreachable"
        | _ => .error "invalid character looking for object key"
  | fuel + 1, .elems acc first, s0 =>
    let s := jsonSkipWs s0
    match s with
    | ']' :: rest =>
      if first then .ok (.jarr acc, rest)
      else .error "invalid character after array element"
    | _ =>
      match parseJ fuel .value s with
      | .error e => .error e
      | .ok (v, rest) =>
        match jsonSkipWs rest with
        | ',' :: rest2 => parseJ fuel (.elems (acc ++ [v]) false) rest2
        | ']' :: rest2 => .ok (.jarr (acc ++ [v]), rest2)
        | _ => .error "invalid character after array element"

/-- Collect a JSON object of strings into a Go `map[string]string`
(`null` leaves the zero value; later duplicates overwrite). -/
def collectLabels : List (Str × JValue) → List (Str × Str) → Option (List (Str × Str))
  | [], acc => some acc
  | (k, .jstr s) :: r, acc => collectLabels r (upsertA k s acc)
  | (k, .jnull) :: r, acc => collectLabels r (upsertA k [] acc)
  | _, _ => none

/-- Collect a JSON array of numbers into a Go `[]float64`. -/
def collectNums : List JValue → Option (List ℚ)
  | [] => some []
  | .jnum q :: r => (collectNums r).map (fun l => q :: l)
  | _ => none

/-- Store one decoded object member into the observation struct:
field names are matched case-insensitively against the JSON tags,
`null` leaves the field untouched, type mismatches error, unknown
fields are ignored. -/
def assignField (o : observation) (k : Str) (v : JValue) : Except String observation :=
  let kl := k.map low
  if kl = str "name" then
    match v with
    | .jstr s => .ok { o with name := s }
    | .jnull => .ok o
    | _ => .error "json: cannot unmarshal value into field name"
  else if kl = str "type" then
    match v with
    | .jstr s => .ok { o with type := s }
    | .jnull => .ok o
    | _ => .error "json: cannot unmarshal value into field type"
  else if kl = str "help" then
    match v with
    | .jstr s => .ok { o with help := s }
    | .jnull => .ok o
    | _ => .error "json: cannot unmarshal value into field help"
  else if kl = str "op" then
    match v with
    | .jstr s => .ok { o with op := s }
    | .jnull => .ok o
    | _ => .error "json: cannot unmarshal value into field op"
  else if kl = str "buckets" then
    match v with
    | .jarr vs =>
      match collectNums vs with
      | some qs => .ok { o with buckets := qs.map .finite }
      | none => .error "json: cannot unmarshal value into field buckets"
    | .jnull => .ok o
    | _ => .error "json: cannot unmarshal value into field buckets"
  else if kl = str "labels" then
    match v with
    | .jobj fs =>
      match collectLabels fs [] with
      | some m => .ok { o with labels := m }
      | none => .error "json: cannot unmarshal value into field labels"
    | .jnull => .ok o
    | _ => .error "json: cannot unmarshal value into field labels"
  else if kl = str "value" then
    match v with
    | .jnum q => .ok { o with value := some (.finite q) }
    | .jnull => .ok o
    | _ => .error "json: cannot unmarshal value into field value"
  else .ok o

/-- Fold the object members into the struct, in order (later duplicate
keys overwrite). -/
def decodeFields : List (Str × JValue) → observation → Except String observation
  | [], o => .ok o
  | (k, v) :: rest, o =>
    match assignField o k v with
    | .error e => .error e
    | .ok o' => decodeFields rest o'

/-- `json.Unmarshal(p, &o)` with `o` the zero observation: parse one JSON
value, reject trailing non-whitespace, and decode an object into the
struct. -/
def goJsonUnmarshal (p : Str) : Except String observation :=
  match parseJ (p.length + 2) .value p with
  | .error e => .error e
  | .ok (v, rest) =>
    if jsonSkipWs rest ≠ [] then .error "invalid character after top-level value"
    else
      match v with
      | .jobj fields => decodeFields fields obsZero
      | .jnull => .ok obsZero
      | _ => .error "json: cannot unmarshal value into observation"

/-- `parseLine` of parse.go: an empty line is an error; a line whose
FIRST BYTE is `0x7b` is decoded as JSON; anything else goes through the
compact textual decoder. -/
def parseLine (p : Str) : PResult :=
  if p.length ≤ 0 then .err "invalid (empty) line"
  else if p.head? = some '\x7b' then
    match goJsonUnmarshal p with
    | .ok o => .ok o
    | .error e => .err e
  else prometheusUnmarshal p

/-- `handleLine` of forward.go restricted to the parse/observe seam: on a
parse error (or fault) the observer is never invoked and the registry
state is unchanged. -/
def handleLine (line : Str) (u : Universe) : Universe × PResult :=
  match parseLine line with
  | .ok o => ((universeObserve u o).1, .ok o)
  | r => (u, r)

/-- The first non-whitespace byte of a line (what claim C9 dispatches on). -/
def firstNonSpace (l : Str) : Option Char := (l.dropWhile isSpc).head?

/-- Whether a parse outcome is a returned error. -/
def isErr : PResult → Bool
  | .err _ => true
  | _ => false

/-! ### Support lemmas for the parser proofs -/

theorem mem_of_head?_eq {l : Str} {a : Char} (h : l.head? = some a) : a ∈ l := by
  cases l with
  | nil => simp at h
  | cons x xs =>
    injection h with h
    rw [← h]
    exact List.mem_cons_self x xs

theorem mem_of_getLast?_eq {l : Str} {a : Char} (h : l.getLast? = some a) : a ∈ l := by
  have hm : a ∈ l.getLast? := by rw [h]; rfl
  obtain ⟨hne, heq⟩ := List.mem_getLast?_eq_getLast hm
  rw [heq]
  exact List.getLast_mem hne

theorem dropWhile_head_false {p : Char → Bool} :
    ∀ {l : Str} {a : Char}, (l.dropWhile p).head? = some a → p a = false := by
  intro l
  induction l with
  | nil => intro a h; simp at h
  | cons x xs ih =>
    intro a h
    rw [List.dropWhile_cons] at h
    cases hpx : p x
    · rw [if_neg (by simp [hpx])] at h
      injection h with h
      rw [← h]
      exact hpx
    · rw [if_pos (by simp [hpx])] at h
      exact ih h

theorem dropWhile_eq_self_of_head {p : Char → Bool} {l : Str}
    (h : ∀ a, l.head? = some a → p a = false) : l.dropWhile p = l := by
  cases l with
  | nil => rfl
  | cons x xs =>
    rw [List.dropWhile_cons, if_neg (by simp [h x rfl])]

theorem getLast?_dropWhile_ne {p : Char → Bool} :
    ∀ {l : Str}, l.dropWhile p ≠ [] → (l.dropWhile p).getLast? = l.getLast? := by
  intro l
  induction l with
  | nil => intro h; exact absurd rfl h
  | cons x xs ih =>
    intro h
    rw [List.dropWhile_cons] at h ⊢
    cases hpx : p x
    · rw [if_neg (by simp [hpx])]
    · rw [if_pos (by simp [hpx])] at h ⊢
      have hxs : xs ≠ [] := by
        intro hc
        rw [hc] at h
        exact h rfl
      rw [ih h]
      cases xs with
      | nil => exact absurd rfl hxs
      | cons y ys => rw [List.getLast?_cons_cons]

theorem trim_eq_of_ends {l : Str} (hne : l ≠ [])
    (hhead : ∀ a, l.head? = some a → isSpc a = false)
    (hlast : ∀ a, l.getLast? = some a → isSpc a = false) :
    goTrimSpace l = l := by
  unfold goTrimSpace
  rw [dropWhile_eq_self_of_head hhead]
  rw [dropWhile_eq_self_of_head (fun a ha => hlast a (by rwa [List.head?_reverse] at ha))]
  exact List.reverse_reverse l

theorem goTrimSpace_idem (l : Str) : goTrimSpace (goTrimSpace l) = goTrimSpace l := by
  by_cases h : goTrimSpace l = []
  · rw [h]; rfl
  · have hr : ((l.dropWhile isSpc).reverse.dropWhile isSpc) ≠ [] := by
      intro hc
      apply h
      unfold goTrimSpace
      rw [hc]
      rfl
    refine trim_eq_of_ends h ?_ ?_
    · intro a ha
      unfold goTrimSpace at ha
      rw [List.head?_reverse, getLast?_dropWhile_ne hr, List.getLast?_reverse] at ha
      exact dropWhile_head_false ha
    · intro a ha
      unfold goTrimSpace at ha
      rw [List.getLast?_reverse] at ha
      exact dropWhile_head_false ha

theorem lastIndexOf_eq_none {c : Char} :
    ∀ {l : Str}, c ∉ l → lastIndexOf c l = none := by
  intro l
  induction l with
  | nil => intro _; rfl
  | cons x xs ih =>
    intro h
    have hx : ¬ x = c := fun hc => h (hc ▸ List.mem_cons_self x xs)
    have hxs : c ∉ xs := fun hc => h (List.mem_cons_of_mem x hc)
    simp only [lastIndexOf, ih hxs, if_neg hx]

theorem lastIndexOf_append_cons {c : Char} (a : Str) {b : Str} (hb : c ∉ b) :
    lastIndexOf c (a ++ c :: b) = some a.length := by
  induction a with
  | nil => simp [lastIndexOf, lastIndexOf_eq_none hb]
  | cons x xs ih => simp [lastIndexOf, ih]

theorem findIdx?_append_cons {t : Char} (a : Str) (b : Str)
    (h : ∀ x ∈ a, ¬ x = t) :
    (a ++ t :: b).findIdx? (fun x => x = t) = some a.length := by
  induction a with
  | nil => simp [List.findIdx?_cons]
  | cons x xs ih =>
    rw [List.cons_append, List.findIdx?_cons]
    rw [if_neg (by simp [h x (List.mem_cons_self x xs)])]
    rw [List.findIdx?_succ, ih (fun y hy => h y (List.mem_cons_of_mem x hy))]
    rfl

theorem findIdx?_exists_of_mem {t : Char} :
    ∀ {l : Str}, t ∈ l → ∃ y, l.findIdx? (fun x => x = t) = some y := by
  intro l
  induction l with
  | nil => intro h; simp at h
  | cons x xs ih =>
    intro h
    rw [List.findIdx?_cons]
    by_cases hx : x = t
    · exact ⟨0, by rw [if_pos (by simp [hx])]⟩
    · have hxs : t ∈ xs := by
        rcases List.mem_cons.mp h with h1 | h1
        · exact absurd h1.symm hx
        · exact h1
      obtain ⟨y, hy⟩ := ih hxs
      exact ⟨y + 1, by rw [if_neg (by simp [hx]), List.findIdx?_succ, hy]; rfl⟩

theorem findIdx?_eq_none_of_forall {t : Char} {l : Str}
    (h : ∀ x ∈ l, ¬ x = t) : l.findIdx? (fun x => x = t) = none := by
  rw [List.findIdx?_eq_none_iff]
  intro x hx
  simp [h x hx]

/-- Trimming a line whose tail part is non-empty, starts with a non-space
byte, and ends with a non-space byte only strips leading whitespace of the
head part. -/
theorem trimSpace_concat {a b : Str} (hb : b ≠ [])
    (hbh : ∀ c, b.head? = some c → isSpc c = false)
    (hbl : ∀ c, b.getLast? = some c → isSpc c = false) :
    goTrimSpace (a ++ b) = a.dropWhile isSpc ++ b := by
  have hleft : (a ++ b).dropWhile isSpc = a.dropWhile isSpc ++ b := by
    rw [List.dropWhile_append]
    by_cases he : (a.dropWhile isSpc).isEmpty
    · rw [if_pos he, dropWhile_eq_self_of_head hbh]
      rw [List.isEmpty_iff] at he
      rw [he, List.nil_append]
    · rw [if_neg he]
  unfold goTrimSpace
  rw [hleft]
  rw [dropWhile_eq_self_of_head (fun c hc => ?_), List.reverse_reverse]
  rw [List.head?_reverse, List.getLast?_append_of_ne_nil _ hb] at hc
  exact hbl c hc

/-- The part of `prometheusUnmarshal` that runs after the value split,
with the identifier and value tokens already isolated. -/
def pmTail (a v : Str) : PResult :=
  match goParseFloat v with
  | none => .err "bad value"
  | some value =>
    match indexOf '\x7b' a with
    | none => .err "bad format: could not find opening brace"
    | some y =>
      if a.getLast? ≠ some '\x7d' then
        .err "bad format: could not find terminating brace"
      else
        if ((a.take (a.length - 1)).drop (y + 1)).contains ' ' then .err "bad format: "
        else
          match buildLabels (((a.take (a.length - 1)).drop (y + 1)).splitOn ',') [] with
          | .err => .err "bad format: label value must be wrapped in quotes"
          | .oob => .oob "runtime error: index out of range"
          | .ok m =>
            .ok { obsZero with name := a.take y, labels := m, value := some value }

/-- The canonical compact textual line `name{ls} v`. -/
def mkTextLine (name ls v : Str) : Str :=
  name ++ '\x7b' :: (ls ++ '\x7d' :: ' ' :: v)

theorem mkTextLine_eq (name ls v : Str) :
    mkTextLine name ls v =
      (name ++ '\x7b' :: (ls ++ ['\x7d'])) ++ ' ' :: v := by
  simp [mkTextLine]

/-- Splitting a well-shaped textual line: the whole line trims to the
identifier-plus-value form, the last space is the separator, and the two
tokens trim to themselves. -/
theorem pm_mkTextLine (name ls v : Str) (hv : v ≠ [])
    (hvs : ∀ c ∈ v, isSpc c = false) :
    prometheusUnmarshal (mkTextLine name ls v) =
      pmTail (name.dropWhile isSpc ++ '\x7b' :: (ls ++ ['\x7d'])) v := by
  have hvh : ∀ c, v.head? = some c → isSpc c = false :=
    fun c hc => hvs c (mem_of_head?_eq hc)
  have hvl : ∀ c, v.getLast? = some c → isSpc c = false :=
    fun c hc => hvs c (mem_of_getLast?_eq hc)
  have hvnospace : ' ' ∉ v := by
    intro hc
    have := hvs ' ' hc
    simp [isSpc] at this
  have htrim : goTrimSpace (mkTextLine name ls v) =
      (name.dropWhile isSpc ++ '\x7b' :: (ls ++ ['\x7d'])) ++ ' ' :: v := by
    rw [mkTextLine_eq, List.append_assoc]
    rw [trimSpace_concat (by simp) (fun c hc => by injection hc with hc; rw [← hc]; rfl)
      (fun c hc => ?_), List.append_assoc]
    rw [show ('\x7b' :: (ls ++ ['\x7d'])) ++ ' ' :: v =
      ('\x7b' :: (ls ++ ['\x7d']) ++ [' ']) ++ v from by simp] at hc
    rw [List.getLast?_append_of_ne_nil _ hv] at hc
    exact hvl c hc
  set a := name.dropWhile isSpc ++ '\x7b' :: (ls ++ ['\x7d']) with ha
  have hane : a ≠ [] := by simp [ha]
  have halast : a.getLast? = some '\x7d' := by
    rw [ha, show name.dropWhile isSpc ++ '\x7b' :: (ls ++ ['\x7d']) =
      (name.dropWhile isSpc ++ '\x7b' :: ls) ++ ['\x7d'] from by simp]
    exact List.getLast?_concat _
  have hahead : ∀ c, a.head? = some c → isSpc c = false := by
    intro c hc
    rw [ha] at hc
    cases hnd : name.dropWhile isSpc with
    | nil =>
      rw [hnd, List.nil_append] at hc
      injection hc with hc
      rw [← hc]
      rfl
    | cons x xs =>
      rw [hnd, List.cons_append] at hc
      injection hc with hc
      rw [← hc]
      exact dropWhile_head_false (by rw [hnd]; rfl)
  have hx : lastIndexOf ' ' (a ++ ' ' :: v) = some a.length :=
    lastIndexOf_append_cons a hvnospace
  have hxpos : ¬ a.length < 1 := by
    have : 0 < a.length := List.length_pos.mpr hane
    omega
  have hid : goTrimSpace ((a ++ ' ' :: v).take a.length) = a := by
    rw [List.take_left]
    exact trim_eq_of_ends hane hahead (fun c hc => by
      rw [halast] at hc; injection hc with hc; rw [← hc]; rfl)
  have hval : goTrimSpace ((a ++ ' ' :: v).drop (a.length + 1)) = v := by
    rw [List.append_cons, List.drop_left' (by simp)]
    exact trim_eq_of_ends hv hvh hvl
  show prometheusUnmarshal (mkTextLine name ls v) = pmTail a v
  simp only [prometheusUnmarshal, htrim, hx]
  rw [if_neg hxpos, hid, hval]
  rfl

/-- Splitting a space-free identifier and value: the same, with no
leading trim on the identifier. -/
theorem pm_idline (id v : Str) (hidne : id ≠ [])
    (hids : ∀ c ∈ id, isSpc c = false) (hv : v ≠ [])
    (hvs : ∀ c ∈ v, isSpc c = false) :
    prometheusUnmarshal (id ++ ' ' :: v) = pmTail id v := by
  have hvh : ∀ c, v.head? = some c → isSpc c = false :=
    fun c hc => hvs c (mem_of_head?_eq hc)
  have hvl : ∀ c, v.getLast? = some c → isSpc c = false :=
    fun c hc => hvs c (mem_of_getLast?_eq hc)
  have hvnospace : ' ' ∉ v := by
    intro hc
    have := hvs ' ' hc
    simp [isSpc] at this
  have htrim : goTrimSpace (id ++ ' ' :: v) = id ++ ' ' :: v := by
    refine trim_eq_of_ends (by simp) ?_ ?_
    · intro c hc
      cases id with
      | nil => exact absurd rfl hidne
      | cons x xs =>
        rw [List.cons_append, List.head?_cons] at hc
        injection hc with hc
        rw [← hc]
        exact hids x (List.mem_cons_self x xs)
    · intro c hc
      rw [List.getLast?_append_of_ne_nil _ (by simp : (' ' :: v) ≠ [])] at hc
      rw [show (' ' :: v) = [' '] ++ v from rfl,
        List.getLast?_append_of_ne_nil _ hv] at hc
      exact hvl c hc
  have hx : lastIndexOf ' ' (id ++ ' ' :: v) = some id.length :=
    lastIndexOf_append_cons id hvnospace
  have hxpos : ¬ id.length < 1 := by
    have : 0 < id.length := List.length_pos.mpr hidne
    omega
  have hid : goTrimSpace ((id ++ ' ' :: v).take id.length) = id := by
    rw [List.take_left]
    exact trim_eq_of_ends hidne (fun c hc => hids c (mem_of_head?_eq hc))
      (fun c hc => hids c (mem_of_getLast?_eq hc))
  have hval : goTrimSpace ((id ++ ' ' :: v).drop (id.length + 1)) = v := by
    rw [List.append_cons, List.drop_left' (by simp)]
    exact trim_eq_of_ends hv hvh hvl
  simp only [prometheusUnmarshal, htrim, hx]
  rw [if_neg hxpos, hid, hval]
  rfl

/-- The label loop errors when every `=`-pair has a value token that is
neither empty nor a lone quote, and some pair has its value token not
wrapped in quotes. -/
theorem buildLabels_err :
    ∀ (pairs : List Str) (m : List (Str × Str)),
      (∀ pair ∈ pairs, ∀ z, pair.findIdx? (fun c => c = '=') = some z →
        pair.drop (z + 1) ≠ [] ∧ pair.drop (z + 1) ≠ ['"']) →
      (∃ pair ∈ pairs, ∃ z, pair.findIdx? (fun c => c = '=') = some z ∧
        ((pair.drop (z + 1)).head? ≠ some '"' ∨
          (pair.drop (z + 1)).getLast? ≠ some '"')) →
      buildLabels pairs m = .err := by
  intro pairs
  induction pairs with
  | nil =>
    intro m _ hbad
    obtain ⟨pair, hmem, _⟩ := hbad
    simp at hmem
  | cons pair rest ih =>
    intro m hok hbad
    unfold buildLabels
    cases hz : pair.findIdx? (fun c => c = '=') with
    | none =>
      obtain ⟨p, hp, z, hzp, hbadp⟩ := hbad
      rcases List.mem_cons.mp hp with h1 | h1
      · rw [h1] at hzp
        rw [hzp] at hz
        exact absurd hz (by simp)
      · exact ih m (fun q hq => hok q (List.mem_cons_of_mem _ hq))
          ⟨p, h1, z, hzp, hbadp⟩
    | some z =>
      obtain ⟨hne, hneq⟩ := hok pair (List.mem_cons_self _ _) z hz
      cases hvtok : pair.drop (z + 1) with
      | nil => exact absurd hvtok hne
      | cons c0 vrest =>
        simp only [hvtok]
        by_cases hq : c0 ≠ '"' ∨ (c0 :: vrest).getLast? ≠ some '"'
        · rw [if_pos hq]
        · rw [if_neg hq]
          push_neg at hq
          obtain ⟨hc0, hlastq⟩ := hq
          have hvrest : vrest ≠ [] := by
            intro hc
            apply hneq
            rw [hvtok, hc, hc0]
          rw [if_neg hvrest]
          refine ih _ (fun q hq => hok q (List.mem_cons_of_mem _ hq)) ?_
          obtain ⟨p, hp, z', hzp, hbadp⟩ := hbad
          rcases List.mem_cons.mp hp with h1 | h1
          · exfalso
            rw [h1] at hzp hbadp
            rw [hzp] at hz
            injection hz with hz
            rw [hz] at hbadp
            rw [hvtok] at hbadp
            rcases hbadp with hb | hb
            · exact hb (by rw [List.head?_cons, hc0])
            · exact hb hlastq
          · exact ⟨p, h1, z', hzp, hbadp⟩

/-- Structure of the identifier token of a canonical textual line. -/
theorem pmA_structure (name ls : Str) (hbrace : '\x7b' ∉ name) :
    indexOf '\x7b' (name.dropWhile isSpc ++ '\x7b' :: (ls ++ ['\x7d'])) =
      some (name.dropWhile isSpc).length ∧
    (name.dropWhile isSpc ++ '\x7b' :: (ls ++ ['\x7d'])).getLast? = some '\x7d' ∧
    (((name.dropWhile isSpc ++ '\x7b' :: (ls ++ ['\x7d'])).take
        ((name.dropWhile isSpc ++ '\x7b' :: (ls ++ ['\x7d'])).length - 1)).drop
      ((name.dropWhile isSpc).length + 1)) = ls := by
  set a := name.dropWhile isSpc ++ '\x7b' :: (ls ++ ['\x7d']) with ha
  refine ⟨?_, ?_, ?_⟩
  · unfold indexOf
    refine findIdx?_append_cons _ _ ?_
    intro x hx hc
    exact hbrace (hc ▸ (List.dropWhile_sublist isSpc).subset hx)
  · rw [ha, show name.dropWhile isSpc ++ '\x7b' :: (ls ++ ['\x7d']) =
      (name.dropWhile isSpc ++ '\x7b' :: ls) ++ ['\x7d'] from by simp]
    exact List.getLast?_concat _
  · have e1 : a = (name.dropWhile isSpc ++ '\x7b' :: ls) ++ ['\x7d'] := by
      rw [ha]; simp
    have e2 : a.length - 1 = (name.dropWhile isSpc ++ '\x7b' :: ls).length := by
      rw [e1, List.length_append]
      simp
    rw [e1, ← e1, e2, e1, List.take_left]
    rw [show name.dropWhile isSpc ++ '\x7b' :: ls =
      (name.dropWhile isSpc ++ ['\x7b']) ++ ls from by simp]
    rw [List.drop_left' (by simp)]

/-- C8 counterexample: the trailing token `inf` does NOT denote a finite
floating-point number, yet the parser accepts the line `foo\x7b\x7d inf`
(Go `ParseFloat` recognizes `inf`, `infinity` and `nan`), so the claimed
rejection of every non-finite trailing token fails. -/
theorem c8_nonfinite_accepted_cx :
    prometheusUnmarshal (str "foo\x7b\x7d inf") =
      .ok { obsZero with name := str "foo", labels := [], value := some .pinf } := by
  decide

/-- C8 amended: the textual parser rejects with a returned error (never
touching the registry) every canonical line with a space anywhere in the
label section, every line whose label section has an `=`-pair with a
non-empty value token not wrapped in double quotes (provided no pair has
an empty or lone-quote value token — those fault instead, see C10), every
line whose identifier lacks an opening or terminating brace, and every
line whose trailing token is not in Go ParseFloat syntax (which includes
the non-finite `inf`/`nan` spellings, see the counterexample); and on any
parse error the registry state is completely unchanged. -/
theorem c8_textual_rejections_amended :
    (∀ name ls v : Str, '\x7b' ∉ name → v ≠ [] → (∀ c ∈ v, isSpc c = false) →
        ls.contains ' ' = true →
        isErr (prometheusUnmarshal (mkTextLine name ls v)) = true) ∧
    (∀ name ls v : Str, '\x7b' ∉ name → v ≠ [] → (∀ c ∈ v, isSpc c = false) →
        ls.contains ' ' = false →
        (∀ pair ∈ ls.splitOn ',', ∀ z, pair.findIdx? (fun c => c = '=') = some z →
          pair.drop (z + 1) ≠ [] ∧ pair.drop (z + 1) ≠ ['"']) →
        (∃ pair ∈ ls.splitOn ',', ∃ z, pair.findIdx? (fun c => c = '=') = some z ∧
          ((pair.drop (z + 1)).head? ≠ some '"' ∨
            (pair.drop (z + 1)).getLast? ≠ some '"')) →
        isErr (prometheusUnmarshal (mkTextLine name ls v)) = true) ∧
    (∀ id v : Str, id ≠ [] → (∀ c ∈ id, isSpc c = false) → v ≠ [] →
        (∀ c ∈ v, isSpc c = false) → '\x7b' ∉ id →
        isErr (prometheusUnmarshal (id ++ ' ' :: v)) = true) ∧
    (∀ id v : Str, id ≠ [] → (∀ c ∈ id, isSpc c = false) → v ≠ [] →
        (∀ c ∈ v, isSpc c = false) → '\x7b' ∈ id → id.getLast? ≠ some '\x7d' →
        isErr (prometheusUnmarshal (id ++ ' ' :: v)) = true) ∧
    (∀ name ls v : Str, v ≠ [] → (∀ c ∈ v, isSpc c = false) →
        goParseFloat v = none →
        isErr (prometheusUnmarshal (mkTextLine name ls v)) = true) ∧
    (∀ (l : Str) (u : Universe), isErr (parseLine l) = true →
        handleLine l u = (u, parseLine l)) := by
  refine ⟨?_, ?_, ?_, ?_, ?_, ?_⟩
  · intro name ls v hbrace hv hvs hsp
    rw [pm_mkTextLine name ls v hv hvs]
    obtain ⟨hfind, hlast, hlab⟩ := pmA_structure name ls hbrace
    cases hpf : goParseFloat v with
    | none => simp [pmTail, hpf, isErr]
    | some w =>
      simp only [pmTail, hpf, hfind, hlab]
      rw [if_neg (by rw [hlast]; simp)]
      rw [if_pos hsp]
      rfl
  · intro name ls v hbrace hv hvs hsp hok hbad
    rw [pm_mkTextLine name ls v hv hvs]
    obtain ⟨hfind, hlast, hlab⟩ := pmA_structure name ls hbrace
    cases hpf : goParseFloat v with
    | none => simp [pmTail, hpf, isErr]
    | some w =>
      simp only [pmTail, hpf, hfind, hlab]
      rw [if_neg (by rw [hlast]; simp)]
      rw [if_neg (by rw [hsp]; simp)]
      rw [buildLabels_err (ls.splitOn ',') [] hok hbad]
      rfl
  · intro id v hidne hids hv hvs hbrace
    rw [pm_idline id v hidne hids hv hvs]
    cases hpf : goParseFloat v with
    | none => simp [pmTail, hpf, isErr]
    | some w =>
      have hfind : indexOf '\x7b' id = none :=
        findIdx?_eq_none_of_forall (fun x hx hc => hbrace (hc ▸ hx))
      simp [pmTail, hpf, hfind, isErr]
  · intro id v hidne hids hv hvs hbrace hlast
    rw [pm_idline id v hidne hids hv hvs]
    cases hpf : goParseFloat v with
    | none => simp [pmTail, hpf, isErr]
    | some w =>
      obtain ⟨y, hy⟩ := findIdx?_exists_of_mem hbrace
      have hfind : indexOf '\x7b' id = some y := hy
      simp only [pmTail, hpf, hfind]
      rw [if_pos hlast]
      rfl
  · intro name ls v hv hvs hpf
    rw [pm_mkTextLine name ls v hv hvs]
    simp [pmTail, hpf, isErr]
  · intro l u h
    cases hp : parseLine l with
    | ok o =>
      rw [hp] at h
      simp [isErr] at h
    | err m => simp [handleLine, hp]
    | oob m => simp [handleLine, hp]

/-- Witness for C8 amended: the line `foo\x7ba b\x7d 7` (a space inside
the label section) is rejected with an error. -/
theorem c8_textual_rejections_amended_witness :
    '\x7b' ∉ str "foo" ∧ str "7" ≠ [] ∧ (∀ c ∈ str "7", isSpc c = false) ∧
    (str "a b").contains ' ' = true ∧
    isErr (prometheusUnmarshal (mkTextLine (str "foo") (str "a b") (str "7"))) = true :=
  ⟨by decide, by decide, by decide, by decide,
   c8_textual_rejections_amended.1 (str "foo") (str "a b") (str "7")
     (by decide) (by decide) (by decide) (by decide)⟩

/-- C9 counterexample: the line SPACE-`\x7b\x7d`-SPACE-`1` has `\x7b` as
its first non-space byte, so per the claim it should be decoded as the
structured (JSON) schema — and as JSON it is malformed (trailing `1`), so
the claim predicts a decode error.  The code instead dispatches on the
raw first byte (a space), takes the compact textual path, and SUCCEEDS,
producing an observation with an empty name. -/
theorem c9_dispatch_on_first_byte_cx :
    firstNonSpace (str " \x7b\x7d 1") = some '\x7b' ∧
    parseLine (str " \x7b\x7d 1") = prometheusUnmarshal (str " \x7b\x7d 1") ∧
    parseLine (str " \x7b\x7d 1") =
      .ok { obsZero with name := [], labels := [], value := some (.finite 1) } ∧
    (match goJsonUnmarshal (str " \x7b\x7d 1") with
      | .error _ => true
      | .ok _ => false) = true := by
  refine ⟨by decide, rfl, by decide, by decide⟩

/-- C9 amended: `parseLine` dispatches on the raw FIRST byte of the line
(not the first non-space byte, and without trimming): an empty line is a
parse error, a line whose first byte is `\x7b` is decoded as the
structured JSON schema (malformed encodings fail with a decode error),
and any other line goes to the compact textual decoder, which itself
trims surrounding whitespace (so only the textual path is
trim-insensitive). -/
theorem c9_parseLine_dispatch_amended :
    parseLine [] = .err "invalid (empty) line" ∧
    (∀ p : Str, p ≠ [] → p.head? = some '\x7b' →
        parseLine p = (match goJsonUnmarshal p with
          | .ok o => PResult.ok o
          | .error e => PResult.err e)) ∧
    (∀ p : Str, p ≠ [] → p.head? ≠ some '\x7b' →
        parseLine p = prometheusUnmarshal p) ∧
    (∀ p : Str, prometheusUnmarshal (goTrimSpace p) = prometheusUnmarshal p) := by
  refine ⟨rfl, ?_, ?_, ?_⟩
  · intro p hne hhead
    cases p with
    | nil => exact absurd rfl hne
    | cons c rest =>
      rw [List.head?_cons] at hhead
      injection hhead with hh
      subst hh
      simp [parseLine]
  · intro p hne hhead
    cases p with
    | nil => exact absurd rfl hne
    | cons c rest =>
      rw [List.head?_cons] at hhead
      have hc : ¬ c = '\x7b' := fun h => hhead (by rw [h])
      simp [parseLine, hc]
  · intro p
    simp only [prometheusUnmarshal, goTrimSpace_idem]

/-- Witness for C9 amended at a concrete textual line. -/
theorem c9_parseLine_dispatch_amended_witness :
    str "foo\x7b\x7d 1" ≠ [] ∧ (str "foo\x7b\x7d 1").head? ≠ some '\x7b' ∧
    parseLine (str "foo\x7b\x7d 1") = prometheusUnmarshal (str "foo\x7b\x7d 1") :=
  ⟨by decide, by decide,
   c9_parseLine_dispatch_amended.2.2.1 (str "foo\x7b\x7d 1") (by decide) (by decide)⟩

/-- C10: the compact textual parser is NOT total on all inputs: on the
line `foo\x7bk=\x7d 1` — a label pair with an empty value token after the
equals sign — the quote check `v[0]` indexes an empty slice and the Go
runtime faults (index out of range), instead of returning an observation
or an error.  The other half of the claim is accurate: a comma token
containing no `=` at all is silently skipped, as the accepted line
`foo\x7babc\x7d 1` shows. -/
theorem c10_empty_label_value_faults :
    prometheusUnmarshal (str "foo\x7bk=\x7d 1") =
      .oob "runtime error: index out of range" ∧
    prometheusUnmarshal (str "foo\x7babc\x7d 1") =
      .ok { obsZero with name := str "foo", labels := [], value := some (.finite 1) } := by
  refine ⟨by decide, by decide⟩

end PromAgg
